import Mathlib

/-!
Verification of the decision-tree induction core (C4.5 and CART builders,
single-sample predictor) and of the numpy logistic-regression model of the
CryAndRRich/Machine-Learning repository.

Feature values are embedded as rationals, labels as naturals (the repository
uses non-negative small integer class labels), and the real-valued impurity
arithmetic (Shannon entropy, gain ratio) as real numbers.  The builder files
`C45_algorithm.py` and `CART_algorithm.py` are translated directly; the tree
node record and the impurity/split utilities they import (`tree.py`,
`utils.py`) are not part of the available sources and are modelled from the
specification, as marked in their doc comments.
-/

/-- Modelled from the spec: the `TreeNode` record of the missing `tree.py`
module.  Per §3 of the spec it is a tagged variant: an internal node holds a
feature index, a threshold `value` and exactly two children `true_branch` and
`false_branch`; a leaf holds only `results`, the predicted class label. -/
inductive TreeNode : Type where
  | node (feature : ℕ) (value : ℚ) (true_branch false_branch : TreeNode)
  | leaf (results : ℕ)
deriving DecidableEq

/-- `features.shape` second component: the common row length of the
rectangular feature matrix (`_, n = features.shape`). -/
def numFeatures (features : List (List ℚ)) : ℕ :=
  match features with
  | [] => 0
  | row :: _ => row.length

/-- The column `features[:, j]`. -/
def column (features : List (List ℚ)) (j : ℕ) : List ℚ :=
  features.map (fun row => row.getD j 0)

/-- The distinct values of a list, each kept once, in a fixed deterministic
order; embeds the candidate threshold set `set(features[:, feature])`
(the Python set iteration order is implementation-defined, so any fixed
enumeration order is a faithful model). -/
def distinctVals : List ℚ → List ℚ
  | [] => []
  | a :: l => if a ∈ distinctVals l then distinctVals l else a :: distinctVals l

theorem mem_distinctVals (l : List ℚ) (x : ℚ) : x ∈ distinctVals l ↔ x ∈ l := by
  induction l with
  | nil => simp [distinctVals]
  | cons a l ih =>
    by_cases h : a ∈ distinctVals l
    · rw [distinctVals, if_pos h]
      rw [ih, List.mem_cons]
      constructor
      · exact Or.inr
      · rintro (rfl | hx)
        · exact ih.mp h
        · exact hx
    · rw [distinctVals, if_neg h]
      rw [List.mem_cons, ih, List.mem_cons]

/-- The candidate (feature, value) pairs scanned by the nested loops
`for feature in range(n): for value in set(features[:, feature]):`,
in iteration order. -/
def candidates (features : List (List ℚ)) : List (ℕ × ℚ) :=
  (List.range (numFeatures features)).flatMap
    (fun j => (distinctVals (column features j)).map (fun v => (j, v)))

theorem mem_candidates (features : List (List ℚ)) (j : ℕ) (v : ℚ) :
    (j, v) ∈ candidates features ↔
      j < numFeatures features ∧ v ∈ distinctVals (column features j) := by
  simp only [candidates, List.mem_flatMap, List.mem_range, List.mem_map]
  constructor
  · rintro ⟨j', hj', v', hv', h⟩
    obtain ⟨rfl, rfl⟩ : j' = j ∧ v' = v := by
      constructor <;> [exact (Prod.mk.injEq _ _ _ _ ▸ h).1;
        exact (Prod.mk.injEq _ _ _ _ ▸ h).2]
    exact ⟨hj', hv'⟩
  · rintro ⟨hj, hv⟩
    exact ⟨j, hj, v, hv, rfl⟩

/-- Modelled from the spec: `split_data` of the missing `utils.py` module.
Per §4.1 it partitions samples by the predicate `sample[feature] <= value`,
stably, rows keeping their feature vector and corresponding label. -/
structure SplitData where
  trueFeatures : List (List ℚ)
  trueLabels : List ℕ
  falseFeatures : List (List ℚ)
  falseLabels : List ℕ

def split_data (features : List (List ℚ)) (labels : List ℕ)
    (feature : ℕ) (value : ℚ) : SplitData :=
  let paired := features.zip labels
  let t := paired.filter (fun p => decide (p.1.getD feature 0 ≤ value))
  let f := paired.filter (fun p => !decide (p.1.getD feature 0 ≤ value))
  ⟨t.map Prod.fst, t.map Prod.snd, f.map Prod.fst, f.map Prod.snd⟩

theorem split_data_trueFeatures_length (features : List (List ℚ))
    (labels : List ℕ) (j : ℕ) (v : ℚ) :
    (split_data features labels j v).trueFeatures.length =
      (split_data features labels j v).trueLabels.length := by
  simp [split_data]

theorem split_data_falseFeatures_length (features : List (List ℚ))
    (labels : List ℕ) (j : ℕ) (v : ℚ) :
    (split_data features labels j v).falseFeatures.length =
      (split_data features labels j v).falseLabels.length := by
  simp [split_data]

theorem length_filter_add_length_filter_not {α : Type} (l : List α)
    (p : α → Bool) :
    (l.filter p).length + (l.filter (fun a => !p a)).length = l.length := by
  induction l with
  | nil => rfl
  | cons a l ih =>
    by_cases h : p a
    · simp [List.filter, h, Nat.succ_add, ih]
    · simp only [List.filter_cons, h, Bool.false_eq_true, if_false, Bool.not_false,
        if_true, List.length_cons]
      omega

theorem split_data_labels_length (features : List (List ℚ)) (labels : List ℕ)
    (j : ℕ) (v : ℚ) :
    (split_data features labels j v).trueLabels.length +
      (split_data features labels j v).falseLabels.length =
      min features.length labels.length := by
  simp only [split_data, List.length_map]
  rw [length_filter_add_length_filter_not, List.length_zip]

theorem split_data_trueLabels_subset (features : List (List ℚ))
    (labels : List ℕ) (j : ℕ) (v : ℚ) (r : ℕ)
    (h : r ∈ (split_data features labels j v).trueLabels) : r ∈ labels := by
  simp only [split_data, List.mem_map, List.mem_filter] at h
  obtain ⟨p, ⟨hp, _⟩, rfl⟩ := h
  exact (List.of_mem_zip hp).2

theorem split_data_falseLabels_subset (features : List (List ℚ))
    (labels : List ℕ) (j : ℕ) (v : ℚ) (r : ℕ)
    (h : r ∈ (split_data features labels j v).falseLabels) : r ∈ labels := by
  simp only [split_data, List.mem_map, List.mem_filter] at h
  obtain ⟨p, ⟨hp, _⟩, rfl⟩ := h
  exact (List.of_mem_zip hp).2

/-- The best-candidate accumulation of the builders' nested loop:
starting from `best = 0, best_criteria = None`, each candidate whose score is
strictly greater than the current best replaces it. -/
def scanBest {α : Type} [LinearOrder α] [Zero α] (score : ℕ × ℚ → α)
    (cands : List (ℕ × ℚ)) : α × Option (ℕ × ℚ) :=
  cands.foldl (fun acc c => if acc.1 < score c then (score c, some c) else acc)
    ((0 : α), none)

theorem scanBest_go_spec {α : Type} [LinearOrder α] (score : ℕ × ℚ → α) :
    ∀ (L : List (ℕ × ℚ)) (b₀ : α) (o₀ : Option (ℕ × ℚ)) (r : α × Option (ℕ × ℚ)),
      r = L.foldl (fun acc c =>
          if acc.1 < score c then (score c, some c) else acc) (b₀, o₀) →
      b₀ ≤ r.1 ∧ (∀ c ∈ L, score c ≤ r.1) ∧
      (r = (b₀, o₀) ∨
        (b₀ < r.1 ∧ ∃ pre c post, L = pre ++ c :: post ∧
          r.1 = score c ∧ r.2 = some c ∧ ∀ c' ∈ pre, score c' < r.1)) := by
  intro L
  induction L with
  | nil =>
    intro b₀ o₀ r hr
    rw [List.foldl_nil] at hr
    exact ⟨le_of_eq (by rw [hr]), by simp, Or.inl hr⟩
  | cons a L ih =>
    intro b₀ o₀ r hr
    by_cases h : b₀ < score a
    · have hr' : r = L.foldl (fun acc c =>
          if acc.1 < score c then (score c, some c) else acc) (score a, some a) := by
        rw [hr]; simp [List.foldl_cons, h]
      obtain ⟨h1, h2, h3⟩ := ih (score a) (some a) r hr'
      refine ⟨le_trans (le_of_lt h) h1, ?_, ?_⟩
      · intro c hc
        rcases List.mem_cons.mp hc with rfl | hc
        · exact h1
        · exact h2 c hc
      · rcases h3 with heq | ⟨hlt, pre, c, post, hL, hsc, hsnd, hpre⟩
        · refine Or.inr ⟨?_, [], a, L, rfl, ?_, ?_, ?_⟩
          · rw [heq]; exact h
          · rw [heq]
          · rw [heq]
          · intro c' hc'; exact absurd hc' (List.not_mem_nil c')
        · refine Or.inr ⟨lt_trans h hlt, a :: pre, c, post, by simp [hL], hsc, hsnd, ?_⟩
          intro c' hc'
          rcases List.mem_cons.mp hc' with rfl | hc'
          · exact hlt
          · exact hpre c' hc'
    · have hr' : r = L.foldl (fun acc c =>
          if acc.1 < score c then (score c, some c) else acc) (b₀, o₀) := by
        rw [hr]; simp [List.foldl_cons, h]
      obtain ⟨h1, h2, h3⟩ := ih b₀ o₀ r hr'
      refine ⟨h1, ?_, ?_⟩
      · intro c hc
        rcases List.mem_cons.mp hc with rfl | hc
        · exact le_trans (le_of_not_lt h) h1
        · exact h2 c hc
      · rcases h3 with heq | ⟨hlt, pre, c, post, hL, hsc, hsnd, hpre⟩
        · exact Or.inl heq
        · refine Or.inr ⟨hlt, a :: pre, c, post, by simp [hL], hsc, hsnd, ?_⟩
          intro c' hc'
          rcases List.mem_cons.mp hc' with rfl | hc'
          · exact lt_of_le_of_lt (le_of_not_lt h) hlt
          · exact hpre c' hc'

theorem scanBest_le {α : Type} [LinearOrder α] [Zero α] (score : ℕ × ℚ → α)
    (cands : List (ℕ × ℚ)) (c : ℕ × ℚ) (hc : c ∈ cands) :
    score c ≤ (scanBest score cands).1 :=
  (scanBest_go_spec score cands 0 none (scanBest score cands) rfl).2.1 c hc

theorem scanBest_nonneg {α : Type} [LinearOrder α] [Zero α] (score : ℕ × ℚ → α)
    (cands : List (ℕ × ℚ)) : (0 : α) ≤ (scanBest score cands).1 :=
  (scanBest_go_spec score cands 0 none (scanBest score cands) rfl).1

theorem scanBest_pos {α : Type} [LinearOrder α] [Zero α] (score : ℕ × ℚ → α)
    (cands : List (ℕ × ℚ)) (h : (0 : α) < (scanBest score cands).1) :
    ∃ pre c post, cands = pre ++ c :: post ∧
      (scanBest score cands).1 = score c ∧
      (scanBest score cands).2 = some c ∧
      ∀ c' ∈ pre, score c' < (scanBest score cands).1 := by
  rcases (scanBest_go_spec score cands 0 none (scanBest score cands) rfl).2.2 with
    heq | ⟨_, h3⟩
  · rw [heq] at h
    exact absurd h (lt_irrefl 0)
  · exact h3

theorem scanBest_all_nonpos {α : Type} [LinearOrder α] [Zero α]
    (score : ℕ × ℚ → α) (cands : List (ℕ × ℚ))
    (h : ∀ c ∈ cands, score c ≤ 0) :
    ¬ (0 : α) < (scanBest score cands).1 := by
  intro hpos
  obtain ⟨pre, c, post, hL, hsc, _, _⟩ := scanBest_pos score cands hpos
  have hmem : c ∈ cands := by rw [hL]; exact List.mem_append_right _ (List.mem_cons_self _ _)
  exact absurd (hsc ▸ hpos) (not_lt.mpr (h c hmem))

/-- The largest label occurring in the list (0 for the empty list):
`len(np.bincount(labels)) - 1`. -/
def maxLabel (labels : List ℕ) : ℕ := labels.foldr max 0

theorem maxLabel_mem (labels : List ℕ) (h : labels ≠ []) :
    maxLabel labels ∈ labels := by
  induction labels with
  | nil => exact absurd rfl h
  | cons a l ih =>
    rcases l with _ | ⟨b, l'⟩
    · simp [maxLabel]
    · rcases max_choice a (maxLabel (b :: l')) with hm | hm
      · simp only [maxLabel, List.foldr_cons] at hm ⊢
        rw [hm]; exact List.mem_cons_self _ _
      · simp only [maxLabel, List.foldr_cons] at hm ⊢
        rw [hm]
        exact List.mem_cons_of_mem _ (ih (by simp))

theorem le_maxLabel (labels : List ℕ) (x : ℕ) (hx : x ∈ labels) :
    x ≤ maxLabel labels := by
  induction labels with
  | nil => exact absurd hx (List.not_mem_nil x)
  | cons a l ih =>
    rcases List.mem_cons.mp hx with rfl | hx
    · exact le_max_left _ _
    · exact le_trans (ih hx) (le_max_right _ _)

/-- `np.argmax(np.bincount(labels))` for a non-empty `labels`: the scan of
the count array at indices `0 .. max(labels)` keeping the first index whose
count is strictly greater than the current best's, i.e. the smallest label
with maximal count.  `np.argmax` raises on the empty array that
`np.bincount` produces from an empty label vector, embedded as `none`. -/
def argmaxBincount (labels : List ℕ) : Option ℕ :=
  match labels with
  | [] => none
  | _ :: _ =>
    some ((List.range (maxLabel labels + 1)).foldl
      (fun b k => if labels.count b < labels.count k then k else b) 0)

theorem argmax_fold_spec (g : ℕ → ℕ) :
    ∀ (L : List ℕ) (a₀ r : ℕ),
      r = L.foldl (fun b k => if g b < g k then k else b) a₀ →
      g a₀ ≤ g r ∧ (∀ k ∈ L, g k ≤ g r) ∧
      (r = a₀ ∨ (g a₀ < g r ∧
        ∃ pre post, L = pre ++ r :: post ∧ ∀ k ∈ pre, g k < g r)) := by
  intro L
  induction L with
  | nil =>
    intro a₀ r hr
    rw [List.foldl_nil] at hr
    exact ⟨le_of_eq (by rw [hr]), by simp, Or.inl hr⟩
  | cons a L ih =>
    intro a₀ r hr
    by_cases h : g a₀ < g a
    · have hr' : r = L.foldl (fun b k => if g b < g k then k else b) a := by
        rw [hr]; simp [List.foldl_cons, h]
      obtain ⟨h1, h2, h3⟩ := ih a r hr'
      refine ⟨le_trans (le_of_lt h) h1, ?_, ?_⟩
      · intro k hk
        rcases List.mem_cons.mp hk with rfl | hk
        · exact h1
        · exact h2 k hk
      · rcases h3 with heq | ⟨hlt, pre, post, hL, hpre⟩
        · refine Or.inr ⟨by rw [heq]; exact h, [], L, by simp [heq], ?_⟩
          intro k hk; exact absurd hk (List.not_mem_nil k)
        · refine Or.inr ⟨lt_trans h hlt, a :: pre, post, by simp [hL], ?_⟩
          intro k hk
          rcases List.mem_cons.mp hk with rfl | hk
          · exact hlt
          · exact hpre k hk
    · have hr' : r = L.foldl (fun b k => if g b < g k then k else b) a₀ := by
        rw [hr]; simp [List.foldl_cons, h]
      obtain ⟨h1, h2, h3⟩ := ih a₀ r hr'
      refine ⟨h1, ?_, ?_⟩
      · intro k hk
        rcases List.mem_cons.mp hk with rfl | hk
        · exact le_trans (le_of_not_lt h) h1
        · exact h2 k hk
      · rcases h3 with heq | ⟨hlt, pre, post, hL, hpre⟩
        · exact Or.inl heq
        · refine Or.inr ⟨hlt, a :: pre, post, by simp [hL], ?_⟩
          intro k hk
          rcases List.mem_cons.mp hk with rfl | hk
          · exact lt_of_le_of_lt (le_of_not_lt h) hlt
          · exact hpre k hk

theorem argmaxBincount_eq_some (labels : List ℕ) (h : labels ≠ []) :
    ∃ m, argmaxBincount labels = some m := by
  cases labels with
  | nil => exact absurd rfl h
  | cons a l => exact ⟨_, rfl⟩

theorem argmaxBincount_spec (labels : List ℕ) (m : ℕ)
    (hm : argmaxBincount labels = some m) :
    m ∈ labels ∧ (∀ k, labels.count k ≤ labels.count m) ∧
      (∀ k, labels.count k = labels.count m → m ≤ k) := by
  have hne : labels ≠ [] := by
    intro hcon
    rw [hcon] at hm
    exact absurd hm (by simp [argmaxBincount])
  have hfold : m = (List.range (maxLabel labels + 1)).foldl
      (fun b k => if labels.count b < labels.count k then k else b) 0 := by
    cases labels with
    | nil => exact absurd rfl hne
    | cons a l =>
      simp only [argmaxBincount, Option.some.injEq] at hm
      exact hm.symm
  obtain ⟨h1, h2, h3⟩ := argmax_fold_spec (fun k => labels.count k)
    (List.range (maxLabel labels + 1)) 0 m hfold
  have hmaxmem : maxLabel labels ∈ List.range (maxLabel labels + 1) :=
    List.mem_range.mpr (Nat.lt_succ_self _)
  have hcount1 : 1 ≤ labels.count m := by
    have hml : maxLabel labels ∈ labels := maxLabel_mem labels hne
    have : 1 ≤ labels.count (maxLabel labels) := List.one_le_count_iff.mpr hml
    exact le_trans this (h2 _ hmaxmem)
  have hmem : m ∈ labels := List.one_le_count_iff.mp hcount1
  have hub : ∀ k, labels.count k ≤ labels.count m := by
    intro k
    by_cases hk : k < maxLabel labels + 1
    · exact h2 k (List.mem_range.mpr hk)
    · have : k ∉ labels := by
        intro hkl
        exact hk (Nat.lt_succ_of_le (le_maxLabel labels k hkl))
      rw [List.count_eq_zero.mpr this]
      exact Nat.zero_le _
  refine ⟨hmem, hub, ?_⟩
  intro k hk
  by_contra hlt
  push_neg at hlt
  rcases h3 with heq | ⟨_, pre, post, hL, hpre⟩
  · omega
  · have hplen : pre.length = m := by
      have hget : (List.range (maxLabel labels + 1))[pre.length]? = some m := by
        rw [hL]
        rw [List.getElem?_append_right (le_refl pre.length)]
        simp
      have hlen : pre.length < maxLabel labels + 1 := by
        by_contra hcon
        push_neg at hcon
        rw [List.getElem?_eq_none (by simpa using hcon)] at hget
        exact absurd hget (by simp)
      rw [List.getElem?_range hlen] at hget
      exact (Option.some.injEq _ _ ▸ hget)
    have hpre_eq : pre = List.range m := by
      have htake : (pre ++ m :: post).take pre.length = pre := List.take_left _ _
      rw [← hL] at htake
      rw [List.take_range] at htake
      rw [← htake, hplen]
      have hmlt : m < maxLabel labels + 1 := by
        have hmr : m ∈ List.range (maxLabel labels + 1) := by
          rw [hL]
          exact List.mem_append_right _ (List.mem_cons_self _ _)
        exact List.mem_range.mp hmr
      rw [min_eq_left (le_of_lt hmlt)]
    have hkpre : k ∈ pre := by
      rw [hpre_eq]
      exact List.mem_range.mpr hlt
    exact absurd hk (ne_of_lt (hpre k hkpre))

theorem argmaxBincount_const (labels : List ℕ) (c : ℕ)
    (hall : ∀ x ∈ labels, x = c) (hne : labels ≠ []) :
    argmaxBincount labels = some c := by
  obtain ⟨m, hm⟩ := argmaxBincount_eq_some labels hne
  have hmem := (argmaxBincount_spec labels m hm).1
  rw [hm, hall m hmem]

/-- Modelled from the spec: `entropy` of the missing `utils.py` module.
Per §4.1, Shannon entropy over the empirical class distribution of `labels`
(natural logarithm, which the spec allows when used consistently);
the entropy of an empty label set is 0. -/
noncomputable def entropy (labels : List ℕ) : ℝ :=
  -(labels.toFinset.sum fun c =>
      ((labels.count c : ℝ) / labels.length) *
        Real.log ((labels.count c : ℝ) / labels.length))

theorem entropy_nil : entropy [] = 0 := by simp [entropy]

theorem div_mul_log_nonpos (x y : ℝ) (hx : 0 ≤ x) (hxy : x ≤ y) :
    (x / y) * Real.log (x / y) ≤ 0 := by
  by_cases hy : y = 0
  · have hx0 : x = 0 := le_antisymm (hy ▸ hxy) hx
    simp [hx0, hy]
  · have hypos : 0 < y := lt_of_le_of_ne (le_trans hx hxy) (Ne.symm hy)
    have hw0 : 0 ≤ x / y := div_nonneg hx (le_of_lt hypos)
    have hw1 : x / y ≤ 1 := (div_le_one hypos).mpr hxy
    exact mul_nonpos_of_nonneg_of_nonpos hw0 (Real.log_nonpos hw0 hw1)

theorem entropy_nonneg (labels : List ℕ) : 0 ≤ entropy labels := by
  rw [entropy, neg_nonneg]
  refine Finset.sum_nonpos ?_
  intro c _
  refine div_mul_log_nonpos _ _ (Nat.cast_nonneg _) ?_
  exact_mod_cast List.count_le_length c labels

theorem entropy_const (labels : List ℕ) (c : ℕ)
    (hall : ∀ x ∈ labels, x = c) (hne : labels ≠ []) : entropy labels = 0 := by
  have htf : labels.toFinset = {c} := by
    ext x
    simp only [List.mem_toFinset, Finset.mem_singleton]
    constructor
    · exact hall x
    · rintro rfl
      cases labels with
      | nil => exact absurd rfl hne
      | cons a l =>
        have : a = x := hall a (List.mem_cons_self a l)
        rw [← this]
        exact List.mem_cons_self a l
  have hcount : labels.count c = labels.length :=
    List.count_eq_length.mpr (fun b hb => (hall b hb).symm)
  have hlen : (labels.length : ℝ) ≠ 0 := by
    simp only [ne_eq, Nat.cast_eq_zero, List.length_eq_zero]
    exact hne
  rw [entropy, htf, Finset.sum_singleton, hcount, div_self hlen]
  simp

/-- Modelled from the spec: the intrinsic information of a split — the
entropy of the split's own branch-size distribution, used by
`information_gain` when `get_ratio` is set (§4.1). -/
noncomputable def intrinsic_information (true_labels false_labels : List ℕ) : ℝ :=
  -(((true_labels.length : ℝ) / ((true_labels.length : ℝ) + (false_labels.length : ℝ))) *
      Real.log ((true_labels.length : ℝ) /
        ((true_labels.length : ℝ) + (false_labels.length : ℝ))) +
    ((false_labels.length : ℝ) / ((true_labels.length : ℝ) + (false_labels.length : ℝ))) *
      Real.log ((false_labels.length : ℝ) /
        ((true_labels.length : ℝ) + (false_labels.length : ℝ))))

theorem intrinsic_information_nonneg (true_labels false_labels : List ℕ) :
    0 ≤ intrinsic_information true_labels false_labels := by
  rw [intrinsic_information, neg_nonneg]
  have h1 := div_mul_log_nonpos (true_labels.length : ℝ)
    ((true_labels.length : ℝ) + (false_labels.length : ℝ)) (Nat.cast_nonneg _)
    (le_add_of_nonneg_right (Nat.cast_nonneg _))
  have h2 := div_mul_log_nonpos (false_labels.length : ℝ)
    ((true_labels.length : ℝ) + (false_labels.length : ℝ)) (Nat.cast_nonneg _)
    (le_add_of_nonneg_left (Nat.cast_nonneg _))
  exact add_nonpos h1 h2

theorem intrinsic_information_empty_left (false_labels : List ℕ) :
    intrinsic_information [] false_labels = 0 := by
  rw [intrinsic_information]
  by_cases h : (false_labels.length : ℝ) = 0
  · simp [h]
  · rw [List.length_nil, Nat.cast_zero, zero_add, zero_div, div_self h,
      Real.log_one, Real.log_zero, mul_zero, mul_zero, add_zero, neg_zero]

theorem intrinsic_information_empty_right (true_labels : List ℕ) :
    intrinsic_information true_labels [] = 0 := by
  rw [intrinsic_information]
  by_cases h : (true_labels.length : ℝ) = 0
  · simp [h]
  · rw [List.length_nil, Nat.cast_zero, add_zero, zero_div, div_self h,
      Real.log_one, Real.log_zero, mul_zero, mul_zero, add_zero, neg_zero]

/-- Modelled from the spec: `information_gain` of the missing `utils.py`
module.  Per §4.1, the weighted entropy reduction
`parent_entropy − (|true|/|total| · entropy(true) + |false|/|total| · entropy(false))`;
when `get_ratio` is set it is normalized by the split's intrinsic
information, and is defined as 0 (not a division error) when the intrinsic
information is 0. -/
noncomputable def information_gain (true_labels false_labels : List ℕ)
    (parent_entropy : ℝ) ( get_ratio : Bool) : ℝ :=
  let nt : ℝ := true_labels.length
  let nf : ℝ := false_labels.length
  let tot := nt + nf
  let gain := parent_entropy -
    ((nt / tot) * entropy true_labels + (nf / tot) * entropy false_labels)
  if get_ratio then
    if intrinsic_information true_labels false_labels = 0 then 0
    else gain / intrinsic_information true_labels false_labels
  else gain

theorem information_gain_ratio_of_zero_intrinsic (true_labels false_labels : List ℕ)
    (parent_entropy : ℝ)
    (h : intrinsic_information true_labels false_labels = 0) :
    information_gain true_labels false_labels parent_entropy true = 0 := by
  simp [information_gain, h]

theorem information_gain_ratio_empty_branch (true_labels false_labels : List ℕ)
    (parent_entropy : ℝ) (h : true_labels = [] ∨ false_labels = []) :
    information_gain true_labels false_labels parent_entropy true = 0 := by
  rcases h with rfl | rfl
  · exact information_gain_ratio_of_zero_intrinsic _ _ _
      (intrinsic_information_empty_left _)
  · exact information_gain_ratio_of_zero_intrinsic _ _ _
      (intrinsic_information_empty_right _)

theorem information_gain_ratio_nonpos_of_parent_zero
    (true_labels false_labels : List ℕ) :
    information_gain true_labels false_labels 0 true ≤ 0 := by
  rw [information_gain]
  simp only [if_true]
  have hweighted : 0 ≤
      ((true_labels.length : ℝ) / ((true_labels.length : ℝ) + (false_labels.length : ℝ))) *
        entropy true_labels +
      ((false_labels.length : ℝ) / ((true_labels.length : ℝ) + (false_labels.length : ℝ))) *
        entropy false_labels := by
    refine add_nonneg (mul_nonneg ?_ (entropy_nonneg _)) (mul_nonneg ?_ (entropy_nonneg _))
    · exact div_nonneg (Nat.cast_nonneg _)
        (add_nonneg (Nat.cast_nonneg _) (Nat.cast_nonneg _))
    · exact div_nonneg (Nat.cast_nonneg _)
        (add_nonneg (Nat.cast_nonneg _) (Nat.cast_nonneg _))
  have hgain : (0 : ℝ) -
      (((true_labels.length : ℝ) / ((true_labels.length : ℝ) + (false_labels.length : ℝ))) *
        entropy true_labels +
      ((false_labels.length : ℝ) / ((true_labels.length : ℝ) + (false_labels.length : ℝ))) *
        entropy false_labels) ≤ 0 := by linarith
  by_cases h : intrinsic_information true_labels false_labels = 0
  · rw [if_pos h]
  · rw [if_neg h]
    have hpos : 0 < intrinsic_information true_labels false_labels :=
      lt_of_le_of_ne (intrinsic_information_nonneg _ _) (Ne.symm h)
    exact div_nonpos_of_nonpos_of_nonneg hgain (le_of_lt hpos)

theorem toFinset_of_const (labels : List ℕ) (c : ℕ)
    (hall : ∀ x ∈ labels, x = c) (hne : labels ≠ []) :
    labels.toFinset = {c} := by
  ext x
  simp only [List.mem_toFinset, Finset.mem_singleton]
  constructor
  · exact hall x
  · rintro rfl
    cases labels with
    | nil => exact absurd rfl hne
    | cons a l =>
      have ha : a = x := hall a (List.mem_cons_self a l)
      rw [← ha]
      exact List.mem_cons_self a l

/-- Modelled from the spec: `gini_impurity` of the missing `utils.py` module.
Per §4.1, `1 − Σ pᵢ²` over the empirical class distribution; 0 for an empty
label set. -/
def gini_impurity (labels : List ℕ) : ℚ :=
  if labels = [] then 0
  else 1 - labels.toFinset.sum fun c => ((labels.count c : ℚ) / labels.length) ^ 2

theorem gini_impurity_nonneg (labels : List ℕ) : 0 ≤ gini_impurity labels := by
  rw [gini_impurity]
  by_cases hne : labels = []
  · rw [if_pos hne]
  · rw [if_neg hne]
    have hlen : (labels.length : ℚ) ≠ 0 := by
      simp only [ne_eq, Nat.cast_eq_zero, List.length_eq_zero]
      exact hne
    have hsumc : (labels.toFinset.sum fun c => labels.count c) = labels.length := by
      have hms := Multiset.toFinset_sum_count_eq (labels : Multiset ℕ)
      simp only [Multiset.coe_count, Multiset.coe_card] at hms
      exact hms
    have hsum1 : (labels.toFinset.sum fun c => ((labels.count c : ℚ) / labels.length)) = 1 := by
      rw [← Finset.sum_div]
      rw [show (labels.toFinset.sum fun c => ((labels.count c : ℚ))) =
          ((labels.toFinset.sum fun c => labels.count c : ℕ) : ℚ) from by push_cast; rfl]
      rw [hsumc]
      exact div_self hlen
    have hle : (labels.toFinset.sum fun c => ((labels.count c : ℚ) / labels.length) ^ 2) ≤
        labels.toFinset.sum fun c => ((labels.count c : ℚ) / labels.length) := by
      refine Finset.sum_le_sum ?_
      intro c _
      have h0 : 0 ≤ (labels.count c : ℚ) / labels.length :=
        div_nonneg (Nat.cast_nonneg _) (Nat.cast_nonneg _)
      have h1 : (labels.count c : ℚ) / labels.length ≤ 1 := by
        have hpos : (0 : ℚ) < labels.length := by
          rcases Nat.eq_zero_or_pos labels.length with hz | hp
          · exact absurd (Nat.cast_eq_zero.mpr hz) hlen
          · exact_mod_cast hp
        exact (div_le_one hpos).mpr (by exact_mod_cast List.count_le_length c labels)
      nlinarith
    linarith [hsum1 ▸ hle]

theorem gini_impurity_const (labels : List ℕ) (c : ℕ)
    (hall : ∀ x ∈ labels, x = c) (hne : labels ≠ []) : gini_impurity labels = 0 := by
  rw [gini_impurity, if_neg hne, toFinset_of_const labels c hall hne]
  have hcount : labels.count c = labels.length :=
    List.count_eq_length.mpr (fun b hb => (hall b hb).symm)
  have hlen : (labels.length : ℚ) ≠ 0 := by
    simp only [ne_eq, Nat.cast_eq_zero, List.length_eq_zero]
    exact hne
  rw [Finset.sum_singleton, hcount, div_self hlen]
  norm_num

/-- Modelled from the spec: `gini_index` of the missing `utils.py` module.
Per §4.1, the weighted impurity reduction with Gini impurity substituted for
entropy and no intrinsic-information normalization. -/
def gini_index (true_labels false_labels : List ℕ) (parent_impurity : ℚ) : ℚ :=
  parent_impurity -
    (((true_labels.length : ℚ) / ((true_labels.length : ℚ) + (false_labels.length : ℚ))) *
      gini_impurity true_labels +
    ((false_labels.length : ℚ) / ((true_labels.length : ℚ) + (false_labels.length : ℚ))) *
      gini_impurity false_labels)

theorem gini_index_nonpos_of_parent_zero (true_labels false_labels : List ℕ) :
    gini_index true_labels false_labels 0 ≤ 0 := by
  rw [gini_index]
  have h1 : 0 ≤ ((true_labels.length : ℚ) /
      ((true_labels.length : ℚ) + (false_labels.length : ℚ))) * gini_impurity true_labels :=
    mul_nonneg (div_nonneg (Nat.cast_nonneg _)
      (add_nonneg (Nat.cast_nonneg _) (Nat.cast_nonneg _))) (gini_impurity_nonneg _)
  have h2 : 0 ≤ ((false_labels.length : ℚ) /
      ((true_labels.length : ℚ) + (false_labels.length : ℚ))) * gini_impurity false_labels :=
    mul_nonneg (div_nonneg (Nat.cast_nonneg _)
      (add_nonneg (Nat.cast_nonneg _) (Nat.cast_nonneg _))) (gini_impurity_nonneg _)
  linarith

theorem gini_index_empty_left (false_labels : List ℕ) :
    gini_index [] false_labels (gini_impurity false_labels) = 0 := by
  rw [gini_index]
  by_cases h : (false_labels.length : ℚ) = 0
  · have hfl : false_labels = [] := by
      simpa [List.length_eq_zero] using (Nat.cast_eq_zero.mp h)
    simp [hfl, gini_impurity]
  · simp only [List.length_nil, Nat.cast_zero, zero_add, zero_div, zero_mul,
      div_self h, one_mul]
    ring

theorem gini_index_empty_right (true_labels : List ℕ) :
    gini_index true_labels [] (gini_impurity true_labels) = 0 := by
  rw [gini_index]
  by_cases h : (true_labels.length : ℚ) = 0
  · have htl : true_labels = [] := by
      simpa [List.length_eq_zero] using (Nat.cast_eq_zero.mp h)
    simp [htl, gini_impurity]
  · simp only [List.length_nil, Nat.cast_zero, add_zero, zero_div, zero_mul,
      div_self h, one_mul]
    ring

/-- `predict_node` of `C45_algorithm.py` (the traversal is shared by both
tree classes): at a leaf return `results`; at an internal node descend into
`true_branch` when `sample[feature] <= value` and into `false_branch`
otherwise. -/
def predict_node : TreeNode → List ℚ → ℕ
  | TreeNode.leaf r, _ => r
  | TreeNode.node feature value true_branch false_branch, sample =>
    if sample.getD feature 0 ≤ value then predict_node true_branch sample
    else predict_node false_branch sample

/-- The `results` values of all leaves of a tree. -/
def leafResults : TreeNode → List ℕ
  | TreeNode.leaf r => [r]
  | TreeNode.node _ _ true_branch false_branch =>
    leafResults true_branch ++ leafResults false_branch

/-- The gain-ratio score of one candidate split of the C4.5 builder's inner
loop: `information_gain(true_labels, false_labels, current_entropy, get_ratio=True)`
on the partition produced by `split_data(features, labels, feature, value)`. -/
noncomputable def C45_split_score (features : List (List ℚ)) (labels : List ℕ)
    (c : ℕ × ℚ) : ℝ :=
  information_gain (split_data features labels c.1 c.2).trueLabels
    (split_data features labels c.1 c.2).falseLabels (entropy labels) true

/-- The C4.5 builder's candidate scan: `current_entropy = entropy(labels)`
followed by the nested loops tracking the strictly best gain ratio and its
`(feature, value)` pair. -/
noncomputable def C45_scan (features : List (List ℚ)) (labels : List ℕ) :
    ℝ × Option (ℕ × ℚ) :=
  scanBest (C45_split_score features labels) (candidates features)

/-- `C45DecisionTree.build_tree`, with explicit recursion fuel (the Python
recursion has no bound; sample count + 1 is always enough fuel, proved
below).  `none` embeds a raised exception: `np.argmax(np.bincount(labels))`
raises on an empty `labels`. -/
noncomputable def C45_build_tree_go : ℕ → List (List ℚ) → List ℕ → Option TreeNode
  | 0, _, _ => none
  | fuel + 1, features, labels =>
    let best := C45_scan features labels
    if 0 < best.1 then
      match best.2 with
      | some c =>
        let s := split_data features labels c.1 c.2
        match C45_build_tree_go fuel s.trueFeatures s.trueLabels,
            C45_build_tree_go fuel s.falseFeatures s.falseLabels with
        | some tb, some fb => some (TreeNode.node c.1 c.2 tb fb)
        | _, _ => none
      | none => none
    else
      (argmaxBincount labels).map TreeNode.leaf

/-- `C45DecisionTree.build_tree features labels`. -/
noncomputable def C45_build_tree (features : List (List ℚ)) (labels : List ℕ) :
    Option TreeNode :=
  C45_build_tree_go (labels.length + 1) features labels

/-- The Gini-index score of one candidate split of the CART builder's inner
loop. -/
def CART_split_score (features : List (List ℚ)) (labels : List ℕ)
    (c : ℕ × ℚ) : ℚ :=
  gini_index (split_data features labels c.1 c.2).trueLabels
    (split_data features labels c.1 c.2).falseLabels (gini_impurity labels)

/-- The CART builder's candidate scan:
`current_uncertainty = gini_impurity(labels)` followed by the nested loops
tracking the strictly best Gini index and its `(feature, value)` pair. -/
def CART_scan (features : List (List ℚ)) (labels : List ℕ) :
    ℚ × Option (ℕ × ℚ) :=
  scanBest (CART_split_score features labels) (candidates features)

/-- `CARTDecisionTree.build_tree`, with explicit recursion fuel, embedded
exactly as the C4.5 builder with the Gini scoring substituted. -/
def CART_build_tree_go : ℕ → List (List ℚ) → List ℕ → Option TreeNode
  | 0, _, _ => none
  | fuel + 1, features, labels =>
    let best := CART_scan features labels
    if 0 < best.1 then
      match best.2 with
      | some c =>
        let s := split_data features labels c.1 c.2
        match CART_build_tree_go fuel s.trueFeatures s.trueLabels,
            CART_build_tree_go fuel s.falseFeatures s.falseLabels with
        | some tb, some fb => some (TreeNode.node c.1 c.2 tb fb)
        | _, _ => none
      | none => none
    else
      (argmaxBincount labels).map TreeNode.leaf

/-- `CARTDecisionTree.build_tree features labels`. -/
def CART_build_tree (features : List (List ℚ)) (labels : List ℕ) :
    Option TreeNode :=
  CART_build_tree_go (labels.length + 1) features labels

/-- The candidate score at one node of the shared builder scheme: the score
function applied to the labels of the two partitions and the node's
impurity. -/
def siteScore {α : Type} (imp : List ℕ → α) (sc : List ℕ → List ℕ → α → α)
    (features : List (List ℚ)) (labels : List ℕ) (c : ℕ × ℚ) : α :=
  sc (split_data features labels c.1 c.2).trueLabels
    (split_data features labels c.1 c.2).falseLabels (imp labels)

/-- The candidate scan of the shared builder scheme. -/
def genericScan {α : Type} [LinearOrder α] [Zero α] (imp : List ℕ → α)
    (sc : List ℕ → List ℕ → α → α) (features : List (List ℚ))
    (labels : List ℕ) : α × Option (ℕ × ℚ) :=
  scanBest (siteScore imp sc features labels) (candidates features)

/-- The builder control structure shared by the two variants, abstracted
over the impurity function `imp` and the ranking score `sc`: scan all
candidates, accept the strictly best split only when its score is strictly
greater than 0, recurse into both partitions, otherwise emit a
majority-vote leaf. -/
def build_tree_generic {α : Type} [LinearOrder α] [Zero α] (imp : List ℕ → α)
    (sc : List ℕ → List ℕ → α → α) :
    ℕ → List (List ℚ) → List ℕ → Option TreeNode
  | 0, _, _ => none
  | fuel + 1, features, labels =>
    let best := genericScan imp sc features labels
    if 0 < best.1 then
      match best.2 with
      | some c =>
        let s := split_data features labels c.1 c.2
        match build_tree_generic imp sc fuel s.trueFeatures s.trueLabels,
            build_tree_generic imp sc fuel s.falseFeatures s.falseLabels with
        | some tb, some fb => some (TreeNode.node c.1 c.2 tb fb)
        | _, _ => none
      | none => none
    else
      (argmaxBincount labels).map TreeNode.leaf

/-- The C4.5 ranking score as a plain score function: gain ratio. -/
noncomputable def gain_ratio_score : List ℕ → List ℕ → ℝ → ℝ :=
  fun true_labels false_labels parent_entropy =>
    information_gain true_labels false_labels parent_entropy true

theorem C45_scan_eq (features : List (List ℚ)) (labels : List ℕ) :
    C45_scan features labels = genericScan entropy gain_ratio_score features labels := rfl

theorem CART_scan_eq (features : List (List ℚ)) (labels : List ℕ) :
    CART_scan features labels = genericScan gini_impurity gini_index features labels := rfl

theorem C45_go_eq_generic : ∀ (fuel : ℕ) (features : List (List ℚ)) (labels : List ℕ),
    C45_build_tree_go fuel features labels =
      build_tree_generic entropy gain_ratio_score fuel features labels := by
  intro fuel
  induction fuel with
  | zero => intro features labels; rfl
  | succ n ih =>
    intro features labels
    simp only [C45_build_tree_go, build_tree_generic, C45_scan_eq, ih]

theorem CART_go_eq_generic : ∀ (fuel : ℕ) (features : List (List ℚ)) (labels : List ℕ),
    CART_build_tree_go fuel features labels =
      build_tree_generic gini_impurity gini_index fuel features labels := by
  intro fuel
  induction fuel with
  | zero => intro features labels; rfl
  | succ n ih =>
    intro features labels
    simp only [CART_build_tree_go, build_tree_generic, CART_scan_eq, ih]

theorem split_trueLabels_nil (features : List (List ℚ)) (labels : List ℕ)
    (j : ℕ) (v : ℚ) (hm : features.length = labels.length)
    (h : (split_data features labels j v).trueLabels = []) :
    (split_data features labels j v).falseLabels = labels := by
  simp only [split_data] at h ⊢
  rw [List.map_eq_nil_iff] at h
  have hall := List.filter_eq_nil_iff.mp h
  have hself : (features.zip labels).filter
      (fun p => !decide (p.1.getD j 0 ≤ v)) = features.zip labels := by
    refine List.filter_eq_self.mpr ?_
    intro a ha
    simpa using hall a ha
  rw [hself]
  exact List.map_snd_zip features labels (le_of_eq hm.symm)

theorem split_falseLabels_nil (features : List (List ℚ)) (labels : List ℕ)
    (j : ℕ) (v : ℚ) (hm : features.length = labels.length)
    (h : (split_data features labels j v).falseLabels = []) :
    (split_data features labels j v).trueLabels = labels := by
  simp only [split_data] at h ⊢
  rw [List.map_eq_nil_iff] at h
  have hall := List.filter_eq_nil_iff.mp h
  have hself : (features.zip labels).filter
      (fun p => decide (p.1.getD j 0 ≤ v)) = features.zip labels := by
    refine List.filter_eq_self.mpr ?_
    intro a ha
    have hna := hall a ha
    simp only [Bool.not_eq_true'] at hna
    simp only [Bool.not_eq_false] at hna
    exact hna
  rw [hself]
  exact List.map_snd_zip features labels (le_of_eq hm.symm)

theorem C45_degenerate_nonpos (features : List (List ℚ)) (labels : List ℕ)
    (c : ℕ × ℚ) (_hm : features.length = labels.length)
    (hdeg : (split_data features labels c.1 c.2).trueLabels = [] ∨
      (split_data features labels c.1 c.2).falseLabels = []) :
    siteScore entropy gain_ratio_score features labels c ≤ 0 :=
  le_of_eq (information_gain_ratio_empty_branch _ _ _ hdeg)

theorem CART_degenerate_nonpos (features : List (List ℚ)) (labels : List ℕ)
    (c : ℕ × ℚ) (hm : features.length = labels.length)
    (hdeg : (split_data features labels c.1 c.2).trueLabels = [] ∨
      (split_data features labels c.1 c.2).falseLabels = []) :
    siteScore gini_impurity gini_index features labels c ≤ 0 := by
  show gini_index (split_data features labels c.1 c.2).trueLabels
    (split_data features labels c.1 c.2).falseLabels (gini_impurity labels) ≤ 0
  rcases hdeg with htl | hfl
  · rw [htl, split_trueLabels_nil features labels c.1 c.2 hm htl]
    exact le_of_eq (gini_index_empty_left labels)
  · rw [hfl, split_falseLabels_nil features labels c.1 c.2 hm hfl]
    exact le_of_eq (gini_index_empty_right labels)

theorem genericScan_le {α : Type} [LinearOrder α] [Zero α] (imp : List ℕ → α)
    (sc : List ℕ → List ℕ → α → α) (features : List (List ℚ)) (labels : List ℕ)
    (c : ℕ × ℚ) (hc : c ∈ candidates features) :
    siteScore imp sc features labels c ≤ (genericScan imp sc features labels).1 :=
  scanBest_le _ _ c hc

theorem genericScan_pos {α : Type} [LinearOrder α] [Zero α] (imp : List ℕ → α)
    (sc : List ℕ → List ℕ → α → α) (features : List (List ℚ)) (labels : List ℕ)
    (h : (0 : α) < (genericScan imp sc features labels).1) :
    ∃ pre c post, candidates features = pre ++ c :: post ∧
      (genericScan imp sc features labels).1 = siteScore imp sc features labels c ∧
      (genericScan imp sc features labels).2 = some c ∧
      ∀ c' ∈ pre, siteScore imp sc features labels c' <
        (genericScan imp sc features labels).1 :=
  scanBest_pos _ _ h

theorem genericScan_all_nonpos {α : Type} [LinearOrder α] [Zero α]
    (imp : List ℕ → α) (sc : List ℕ → List ℕ → α → α)
    (features : List (List ℚ)) (labels : List ℕ)
    (h : ∀ c ∈ candidates features, siteScore imp sc features labels c ≤ 0) :
    ¬ (0 : α) < (genericScan imp sc features labels).1 :=
  scanBest_all_nonpos _ _ h

theorem generic_accepted_branches {α : Type} [LinearOrder α] [Zero α]
    (imp : List ℕ → α) (sc : List ℕ → List ℕ → α → α)
    (H : ∀ (features : List (List ℚ)) (labels : List ℕ) (c : ℕ × ℚ),
      features.length = labels.length →
      ((split_data features labels c.1 c.2).trueLabels = [] ∨
        (split_data features labels c.1 c.2).falseLabels = []) →
      siteScore imp sc features labels c ≤ 0)
    (features : List (List ℚ)) (labels : List ℕ) (c : ℕ × ℚ)
    (hm : features.length = labels.length)
    (hpos : 0 < siteScore imp sc features labels c) :
    (split_data features labels c.1 c.2).trueLabels ≠ [] ∧
      (split_data features labels c.1 c.2).falseLabels ≠ [] ∧
      (split_data features labels c.1 c.2).trueLabels.length < labels.length ∧
      (split_data features labels c.1 c.2).falseLabels.length < labels.length := by
  have hne : ¬((split_data features labels c.1 c.2).trueLabels = [] ∨
      (split_data features labels c.1 c.2).falseLabels = []) := by
    intro hdeg
    exact absurd hpos (not_lt.mpr (H features labels c hm hdeg))
  push_neg at hne
  obtain ⟨htl, hfl⟩ := hne
  have hsum := split_data_labels_length features labels c.1 c.2
  rw [hm, min_self] at hsum
  have htpos : 0 < (split_data features labels c.1 c.2).trueLabels.length :=
    List.length_pos.mpr htl
  have hfpos : 0 < (split_data features labels c.1 c.2).falseLabels.length :=
    List.length_pos.mpr hfl
  exact ⟨htl, hfl, by omega, by omega⟩

theorem build_tree_generic_fuel_stable {α : Type} [LinearOrder α] [Zero α]
    (imp : List ℕ → α) (sc : List ℕ → List ℕ → α → α)
    (H : ∀ (features : List (List ℚ)) (labels : List ℕ) (c : ℕ × ℚ),
      features.length = labels.length →
      ((split_data features labels c.1 c.2).trueLabels = [] ∨
        (split_data features labels c.1 c.2).falseLabels = []) →
      siteScore imp sc features labels c ≤ 0) :
    ∀ (fuel₁ fuel₂ : ℕ) (features : List (List ℚ)) (labels : List ℕ),
      labels.length < fuel₁ → labels.length < fuel₂ →
      features.length = labels.length →
      build_tree_generic imp sc fuel₁ features labels =
        build_tree_generic imp sc fuel₂ features labels := by
  intro fuel₁
  induction fuel₁ with
  | zero =>
    intro fuel₂ features labels h1 _ _
    exact absurd h1 (Nat.not_lt_zero _)
  | succ n ih =>
    intro fuel₂ features labels h1 h2 hm
    cases fuel₂ with
    | zero => exact absurd h2 (Nat.not_lt_zero _)
    | succ k =>
      by_cases hpos : 0 < (genericScan imp sc features labels).1
      · obtain ⟨pre, c, post, hcands, hsc, hsnd, hpre⟩ :=
          genericScan_pos imp sc features labels hpos
        have hscore : 0 < siteScore imp sc features labels c := hsc ▸ hpos
        obtain ⟨htl, hfl, htlen, hflen⟩ :=
          generic_accepted_branches imp sc H features labels c hm hscore
        have hmt := (split_data_trueFeatures_length features labels c.1 c.2)
        have hmf := (split_data_falseFeatures_length features labels c.1 c.2)
        have iht : build_tree_generic imp sc n
            (split_data features labels c.1 c.2).trueFeatures
            (split_data features labels c.1 c.2).trueLabels =
            build_tree_generic imp sc k
            (split_data features labels c.1 c.2).trueFeatures
            (split_data features labels c.1 c.2).trueLabels :=
          ih k _ _ (by omega) (by omega) hmt
        have ihf : build_tree_generic imp sc n
            (split_data features labels c.1 c.2).falseFeatures
            (split_data features labels c.1 c.2).falseLabels =
            build_tree_generic imp sc k
            (split_data features labels c.1 c.2).falseFeatures
            (split_data features labels c.1 c.2).falseLabels :=
          ih k _ _ (by omega) (by omega) hmf
        simp only [build_tree_generic, hsnd, if_pos hpos, iht, ihf]
      · simp only [build_tree_generic, if_neg hpos]

theorem build_tree_generic_total {α : Type} [LinearOrder α] [Zero α]
    (imp : List ℕ → α) (sc : List ℕ → List ℕ → α → α)
    (H : ∀ (features : List (List ℚ)) (labels : List ℕ) (c : ℕ × ℚ),
      features.length = labels.length →
      ((split_data features labels c.1 c.2).trueLabels = [] ∨
        (split_data features labels c.1 c.2).falseLabels = []) →
      siteScore imp sc features labels c ≤ 0) :
    ∀ (fuel : ℕ) (features : List (List ℚ)) (labels : List ℕ),
      labels.length < fuel → features.length = labels.length → labels ≠ [] →
      ∃ t, build_tree_generic imp sc fuel features labels = some t := by
  intro fuel
  induction fuel with
  | zero =>
    intro features labels h1 _ _
    exact absurd h1 (Nat.not_lt_zero _)
  | succ n ih =>
    intro features labels h1 hm hne
    by_cases hpos : 0 < (genericScan imp sc features labels).1
    · obtain ⟨pre, c, post, hcands, hsc, hsnd, hpre⟩ :=
        genericScan_pos imp sc features labels hpos
      have hscore : 0 < siteScore imp sc features labels c := hsc ▸ hpos
      obtain ⟨htl, hfl, htlen, hflen⟩ :=
        generic_accepted_branches imp sc H features labels c hm hscore
      obtain ⟨tb, htb⟩ := ih (split_data features labels c.1 c.2).trueFeatures
        (split_data features labels c.1 c.2).trueLabels (by omega)
        (split_data_trueFeatures_length features labels c.1 c.2) htl
      obtain ⟨fb, hfb⟩ := ih (split_data features labels c.1 c.2).falseFeatures
        (split_data features labels c.1 c.2).falseLabels (by omega)
        (split_data_falseFeatures_length features labels c.1 c.2) hfl
      refine ⟨TreeNode.node c.1 c.2 tb fb, ?_⟩
      simp only [build_tree_generic, hsnd, if_pos hpos, htb, hfb]
    · obtain ⟨m, hmx⟩ := argmaxBincount_eq_some labels hne
      refine ⟨TreeNode.leaf m, ?_⟩
      simp only [build_tree_generic, if_neg hpos, hmx, Option.map_some']

theorem build_tree_generic_leaves_mem {α : Type} [LinearOrder α] [Zero α]
    (imp : List ℕ → α) (sc : List ℕ → List ℕ → α → α) :
    ∀ (fuel : ℕ) (features : List (List ℚ)) (labels : List ℕ) (t : TreeNode),
      build_tree_generic imp sc fuel features labels = some t →
      ∀ r ∈ leafResults t, r ∈ labels := by
  intro fuel
  induction fuel with
  | zero =>
    intro features labels t ht
    exact absurd ht (by simp [build_tree_generic])
  | succ n ih =>
    intro features labels t ht
    by_cases hpos : 0 < (genericScan imp sc features labels).1
    · rcases hsnd : (genericScan imp sc features labels).2 with _ | c
      · rw [build_tree_generic] at ht
        simp only [hsnd, if_pos hpos] at ht
        exact Option.noConfusion ht
      · rcases htb : build_tree_generic imp sc n
            (split_data features labels c.1 c.2).trueFeatures
            (split_data features labels c.1 c.2).trueLabels with _ | tb
        · rw [build_tree_generic] at ht
          simp only [hsnd, if_pos hpos, htb] at ht
          exact Option.noConfusion ht
        · rcases hfb : build_tree_generic imp sc n
              (split_data features labels c.1 c.2).falseFeatures
              (split_data features labels c.1 c.2).falseLabels with _ | fb
          · rw [build_tree_generic] at ht
            simp only [hsnd, if_pos hpos, htb, hfb] at ht
            exact Option.noConfusion ht
          · rw [build_tree_generic] at ht
            simp only [hsnd, if_pos hpos, htb, hfb, Option.some.injEq] at ht
            intro r hr
            rw [← ht] at hr
            rw [leafResults] at hr
            rcases List.mem_append.mp hr with hrt | hrf
            · exact split_data_trueLabels_subset features labels c.1 c.2 r
                (ih _ _ tb htb r hrt)
            · exact split_data_falseLabels_subset features labels c.1 c.2 r
                (ih _ _ fb hfb r hrf)
    · rcases hmx : argmaxBincount labels with _ | m
      · rw [build_tree_generic] at ht
        simp only [if_neg hpos, hmx, Option.map_none'] at ht
        exact Option.noConfusion ht
      · rw [build_tree_generic] at ht
        simp only [if_neg hpos, hmx, Option.map_some', Option.some.injEq] at ht
        intro r hr
        rw [← ht] at hr
        rw [leafResults] at hr
        have hrm : r = m := List.mem_singleton.mp hr
        rw [hrm]
        exact (argmaxBincount_spec labels m hmx).1

theorem build_tree_generic_leaf_step {α : Type} [LinearOrder α] [Zero α]
    (imp : List ℕ → α) (sc : List ℕ → List ℕ → α → α) (fuel : ℕ)
    (features : List (List ℚ)) (labels : List ℕ)
    (hle : ∀ c ∈ candidates features, siteScore imp sc features labels c ≤ 0) :
    build_tree_generic imp sc (fuel + 1) features labels =
      (argmaxBincount labels).map TreeNode.leaf := by
  have hnpos := genericScan_all_nonpos imp sc features labels hle
  simp only [build_tree_generic, if_neg hnpos]

theorem build_tree_generic_pos_step {α : Type} [LinearOrder α] [Zero α]
    (imp : List ℕ → α) (sc : List ℕ → List ℕ → α → α)
    (H : ∀ (features : List (List ℚ)) (labels : List ℕ) (c : ℕ × ℚ),
      features.length = labels.length →
      ((split_data features labels c.1 c.2).trueLabels = [] ∨
        (split_data features labels c.1 c.2).falseLabels = []) →
      siteScore imp sc features labels c ≤ 0)
    (features : List (List ℚ)) (labels : List ℕ) (c : ℕ × ℚ)
    (hm : features.length = labels.length)
    (hpos : 0 < (genericScan imp sc features labels).1)
    (hsnd : (genericScan imp sc features labels).2 = some c) :
    ∃ tb fb,
      build_tree_generic imp sc
        ((split_data features labels c.1 c.2).trueLabels.length + 1)
        (split_data features labels c.1 c.2).trueFeatures
        (split_data features labels c.1 c.2).trueLabels = some tb ∧
      build_tree_generic imp sc
        ((split_data features labels c.1 c.2).falseLabels.length + 1)
        (split_data features labels c.1 c.2).falseFeatures
        (split_data features labels c.1 c.2).falseLabels = some fb ∧
      build_tree_generic imp sc (labels.length + 1) features labels =
        some (TreeNode.node c.1 c.2 tb fb) := by
  obtain ⟨pre, c', post, hcands, hsc, hsnd', hpre⟩ :=
    genericScan_pos imp sc features labels hpos
  have hcc : c' = c := by
    rw [hsnd'] at hsnd
    exact Option.some.inj hsnd
  subst hcc
  have hscore : 0 < siteScore imp sc features labels c' := hsc ▸ hpos
  obtain ⟨htl, hfl, htlen, hflen⟩ :=
    generic_accepted_branches imp sc H features labels c' hm hscore
  obtain ⟨tb, htb⟩ := build_tree_generic_total imp sc H
    ((split_data features labels c'.1 c'.2).trueLabels.length + 1)
    (split_data features labels c'.1 c'.2).trueFeatures
    (split_data features labels c'.1 c'.2).trueLabels
    (Nat.lt_succ_self _) (split_data_trueFeatures_length features labels c'.1 c'.2) htl
  obtain ⟨fb, hfb⟩ := build_tree_generic_total imp sc H
    ((split_data features labels c'.1 c'.2).falseLabels.length + 1)
    (split_data features labels c'.1 c'.2).falseFeatures
    (split_data features labels c'.1 c'.2).falseLabels
    (Nat.lt_succ_self _) (split_data_falseFeatures_length features labels c'.1 c'.2) hfl
  refine ⟨tb, fb, htb, hfb, ?_⟩
  have htb' : build_tree_generic imp sc labels.length
      (split_data features labels c'.1 c'.2).trueFeatures
      (split_data features labels c'.1 c'.2).trueLabels = some tb := by
    rw [build_tree_generic_fuel_stable imp sc H labels.length
      ((split_data features labels c'.1 c'.2).trueLabels.length + 1) _ _
      htlen (Nat.lt_succ_self _)
      (split_data_trueFeatures_length features labels c'.1 c'.2)]
    exact htb
  have hfb' : build_tree_generic imp sc labels.length
      (split_data features labels c'.1 c'.2).falseFeatures
      (split_data features labels c'.1 c'.2).falseLabels = some fb := by
    rw [build_tree_generic_fuel_stable imp sc H labels.length
      ((split_data features labels c'.1 c'.2).falseLabels.length + 1) _ _
      hflen (Nat.lt_succ_self _)
      (split_data_falseFeatures_length features labels c'.1 c'.2)]
    exact hfb
  simp only [build_tree_generic, hsnd', if_pos hpos, htb', hfb']

theorem predict_node_mem_leafResults (t : TreeNode) (sample : List ℚ) :
    predict_node t sample ∈ leafResults t := by
  induction t with
  | leaf r => simp [predict_node, leafResults]
  | node feature value true_branch false_branch ih_true ih_false =>
    rw [predict_node, leafResults]
    by_cases h : sample.getD feature 0 ≤ value
    · rw [if_pos h]
      exact List.mem_append_left _ ih_true
    · rw [if_neg h]
      exact List.mem_append_right _ ih_false

/-- Structural identity of two trees: same split feature and threshold at
every internal node, same label at every leaf. -/
def treeIdentical : TreeNode → TreeNode → Prop
  | TreeNode.leaf r, TreeNode.leaf r' => r = r'
  | TreeNode.node feature value tb fb, TreeNode.node feature' value' tb' fb' =>
    feature = feature' ∧ value = value' ∧ treeIdentical tb tb' ∧ treeIdentical fb fb'
  | _, _ => False

theorem treeIdentical_refl (t : TreeNode) : treeIdentical t t := by
  induction t with
  | leaf r => rw [treeIdentical]
  | node feature value tb fb ih_true ih_false =>
    rw [treeIdentical]
    exact ⟨rfl, rfl, ih_true, ih_false⟩

/-- Structural identity lifted to the builders' optional result (`none`
embeds the raised exception; two runs that both raise are identical). -/
def optionTreeIdentical : Option TreeNode → Option TreeNode → Prop
  | some t, some t' => treeIdentical t t'
  | none, none => True
  | _, _ => False

theorem optionTreeIdentical_refl (o : Option TreeNode) : optionTreeIdentical o o := by
  cases o with
  | none => rw [optionTreeIdentical]; trivial
  | some t => rw [optionTreeIdentical]; exact treeIdentical_refl t

theorem empty_input_none_C45 :
    C45_build_tree ([] : List (List ℚ)) ([] : List ℕ) = none := by
  rw [C45_build_tree, C45_go_eq_generic]
  show build_tree_generic entropy gain_ratio_score (0 + 1) [] [] = none
  rw [build_tree_generic_leaf_step entropy gain_ratio_score 0 [] []
    (fun c hc => absurd hc (List.not_mem_nil c))]
  rfl

theorem empty_input_none_CART :
    CART_build_tree ([] : List (List ℚ)) ([] : List ℕ) = none := rfl

theorem build_tree_single_label_aux (features : List (List ℚ)) (labels : List ℕ)
    (c : ℕ) (hall : ∀ x ∈ labels, x = c) (hne : labels ≠ []) :
    (∀ cand ∈ candidates features,
      C45_split_score features labels cand ≤ 0 ∧
      CART_split_score features labels cand ≤ 0) ∧
    C45_build_tree features labels = some (TreeNode.leaf c) ∧
    CART_build_tree features labels = some (TreeNode.leaf c) := by
  have hscores : ∀ cand ∈ candidates features,
      C45_split_score features labels cand ≤ 0 ∧
      CART_split_score features labels cand ≤ 0 := by
    intro cand _
    constructor
    · show information_gain _ _ (entropy labels) true ≤ 0
      rw [entropy_const labels c hall hne]
      exact information_gain_ratio_nonpos_of_parent_zero _ _
    · show gini_index _ _ (gini_impurity labels) ≤ 0
      rw [gini_impurity_const labels c hall hne]
      exact gini_index_nonpos_of_parent_zero _ _
  refine ⟨hscores, ?_, ?_⟩
  · rw [C45_build_tree, C45_go_eq_generic,
      build_tree_generic_leaf_step entropy gain_ratio_score labels.length features
        labels (fun cand hc => (hscores cand hc).1),
      argmaxBincount_const labels c hall hne]
    rfl
  · rw [CART_build_tree, CART_go_eq_generic,
      build_tree_generic_leaf_step gini_impurity gini_index labels.length features
        labels (fun cand hc => (hscores cand hc).2),
      argmaxBincount_const labels c hall hne]
    rfl

/-- C5: for every finite tree and every sample vector, `predict_node`
terminates (it is a total function of the finite tree) and returns a label
by single-sample traversal: at a leaf it returns that leaf's `results`, and
at an internal node it descends into `true_branch` when
`sample[feature] <= value` and into `false_branch` otherwise. -/
theorem predict_node_traversal :
    (∀ (results : ℕ) (sample : List ℚ),
      predict_node (TreeNode.leaf results) sample = results) ∧
    (∀ (feature : ℕ) (value : ℚ) (true_branch false_branch : TreeNode)
        (sample : List ℚ),
      predict_node (TreeNode.node feature value true_branch false_branch) sample =
        predict_node
          (if sample.getD feature 0 ≤ value then true_branch else false_branch)
          sample) := by
  constructor
  · intro r s
    rfl
  · intro feature value tb fb s
    rw [predict_node]
    by_cases h : s.getD feature 0 ≤ value
    · rw [if_pos h, if_pos h]
    · rw [if_neg h, if_neg h]

/-- C7: `information_gain(..., get_ratio=True)` is a total real-valued
function (so never NaN or infinity in the real-number model): whenever the
intrinsic information of the split is 0 — in particular whenever one branch
is empty — it returns exactly 0 rather than a division error or a value
that could beat a non-degenerate candidate. -/
theorem information_gain_ratio_never_undefined :
    ∀ (true_labels false_labels : List ℕ) (parent_entropy : ℝ),
      (intrinsic_information true_labels false_labels = 0 →
        information_gain true_labels false_labels parent_entropy true = 0) ∧
      ((true_labels = [] ∨ false_labels = []) →
        information_gain true_labels false_labels parent_entropy true = 0) :=
  fun true_labels false_labels parent_entropy =>
    ⟨information_gain_ratio_of_zero_intrinsic true_labels false_labels parent_entropy,
     information_gain_ratio_empty_branch true_labels false_labels parent_entropy⟩

theorem information_gain_ratio_never_undefined_witness :
    information_gain [] [0] 1 true = 0 :=
  (information_gain_ratio_never_undefined [] [0] 1).2 (Or.inl rfl)

/-- C8: `build_tree` is deterministic as a two-run property: both builders,
run on equal feature matrices and equal label vectors, produce structurally
identical trees (same split feature and threshold at every internal node,
same label at every leaf). -/
theorem build_tree_deterministic (features₁ features₂ : List (List ℚ))
    (labels₁ labels₂ : List ℕ) (hf : features₁ = features₂)
    (hl : labels₁ = labels₂) :
    optionTreeIdentical (C45_build_tree features₁ labels₁)
      (C45_build_tree features₂ labels₂) ∧
    optionTreeIdentical (CART_build_tree features₁ labels₁)
      (CART_build_tree features₂ labels₂) := by
  subst hf
  subst hl
  exact ⟨optionTreeIdentical_refl _, optionTreeIdentical_refl _⟩

theorem build_tree_deterministic_witness :
    ([[1]] : List (List ℚ)) = [[1]] ∧ ([0] : List ℕ) = [0] ∧
    (optionTreeIdentical (C45_build_tree [[1]] [0]) (C45_build_tree [[1]] [0]) ∧
     optionTreeIdentical (CART_build_tree [[1]] [0]) (CART_build_tree [[1]] [0])) :=
  ⟨rfl, rfl, build_tree_deterministic [[1]] [[1]] [0] [0] rfl rfl⟩

/-- C4: the CART builder has control structure identical to the C4.5
builder: both are instances of the one shared scheme
`build_tree_generic` — the same candidate scan, the same strict
greater-than-0 acceptance, the same recursive node construction and the
same majority-vote leaf rule — differing only in the impurity and scoring
functions substituted (`entropy`/gain ratio versus
`gini_impurity`/`gini_index`). -/
theorem builders_share_control_structure :
    (∀ (fuel : ℕ) (features : List (List ℚ)) (labels : List ℕ),
      C45_build_tree_go fuel features labels =
        build_tree_generic entropy gain_ratio_score fuel features labels) ∧
    (∀ (fuel : ℕ) (features : List (List ℚ)) (labels : List ℕ),
      CART_build_tree_go fuel features labels =
        build_tree_generic gini_impurity gini_index fuel features labels) ∧
    (∀ (features : List (List ℚ)) (labels : List ℕ),
      C45_build_tree features labels =
        build_tree_generic entropy gain_ratio_score (labels.length + 1)
          features labels) ∧
    (∀ (features : List (List ℚ)) (labels : List ℕ),
      CART_build_tree features labels =
        build_tree_generic gini_impurity gini_index (labels.length + 1)
          features labels) :=
  ⟨C45_go_eq_generic, CART_go_eq_generic,
   fun features labels => C45_go_eq_generic _ features labels,
   fun features labels => CART_go_eq_generic _ features labels⟩

/-- C3: on matched inputs both builders terminate within recursion depth
bounded by the sample count: every accepted split (score strictly greater
than 0) produces two non-empty partitions that are strictly smaller than
the node's sample set, and any recursion fuel beyond the sample count
computes the same tree as `build_tree` itself (whose fuel is
`labels.length + 1`). -/
theorem build_tree_termination (features : List (List ℚ)) (labels : List ℕ)
    (hm : features.length = labels.length) :
    (∀ c : ℕ × ℚ, 0 < C45_split_score features labels c →
      0 < (split_data features labels c.1 c.2).trueLabels.length ∧
      (split_data features labels c.1 c.2).trueLabels.length < labels.length ∧
      0 < (split_data features labels c.1 c.2).falseLabels.length ∧
      (split_data features labels c.1 c.2).falseLabels.length < labels.length) ∧
    (∀ c : ℕ × ℚ, 0 < CART_split_score features labels c →
      0 < (split_data features labels c.1 c.2).trueLabels.length ∧
      (split_data features labels c.1 c.2).trueLabels.length < labels.length ∧
      0 < (split_data features labels c.1 c.2).falseLabels.length ∧
      (split_data features labels c.1 c.2).falseLabels.length < labels.length) ∧
    (∀ fuel : ℕ, labels.length < fuel →
      C45_build_tree_go fuel features labels = C45_build_tree features labels ∧
      CART_build_tree_go fuel features labels = CART_build_tree features labels) := by
  refine ⟨?_, ?_, ?_⟩
  · intro c hpos
    obtain ⟨htl, hfl, htlen, hflen⟩ := generic_accepted_branches entropy
      gain_ratio_score C45_degenerate_nonpos features labels c hm hpos
    exact ⟨List.length_pos.mpr htl, htlen, List.length_pos.mpr hfl, hflen⟩
  · intro c hpos
    obtain ⟨htl, hfl, htlen, hflen⟩ := generic_accepted_branches gini_impurity
      gini_index CART_degenerate_nonpos features labels c hm hpos
    exact ⟨List.length_pos.mpr htl, htlen, List.length_pos.mpr hfl, hflen⟩
  · intro fuel hfuel
    constructor
    · rw [C45_go_eq_generic, C45_build_tree, C45_go_eq_generic]
      exact build_tree_generic_fuel_stable entropy gain_ratio_score
        C45_degenerate_nonpos fuel (labels.length + 1) features labels hfuel
        (Nat.lt_succ_self _) hm
    · rw [CART_go_eq_generic, CART_build_tree, CART_go_eq_generic]
      exact build_tree_generic_fuel_stable gini_impurity gini_index
        CART_degenerate_nonpos fuel (labels.length + 1) features labels hfuel
        (Nat.lt_succ_self _) hm

theorem build_tree_termination_witness :
    ([[(0 : ℚ)]] : List (List ℚ)).length = ([5] : List ℕ).length ∧
    (1 : ℕ) < 2 ∧
    (C45_build_tree_go 2 [[(0 : ℚ)]] [5] = C45_build_tree [[(0 : ℚ)]] [5] ∧
     CART_build_tree_go 2 [[(0 : ℚ)]] [5] = CART_build_tree [[(0 : ℚ)]] [5]) :=
  ⟨rfl, by decide,
   (build_tree_termination [[(0 : ℚ)]] [5] rfl).2.2 2 (by decide)⟩

/-- C2: at a node where no candidate split scores strictly greater than 0
(gain ratio for C4.5, Gini-index gain for CART) — in particular a candidate
scoring exactly 0 is never selected even if it is the only candidate, the
comparison being strict against the initial best of 0 — both builders
return a leaf whose `results` is the most frequent label of the non-empty
current label vector, ties broken toward the smallest label value
(the `np.argmax(np.bincount(labels))` semantics). -/
theorem build_tree_leaf_majority (features : List (List ℚ)) (labels : List ℕ)
    (hne : labels ≠ [])
    (h45 : ∀ c ∈ candidates features, C45_split_score features labels c ≤ 0)
    (hcart : ∀ c ∈ candidates features, CART_split_score features labels c ≤ 0) :
    ∃ m, argmaxBincount labels = some m ∧
      C45_build_tree features labels = some (TreeNode.leaf m) ∧
      CART_build_tree features labels = some (TreeNode.leaf m) ∧
      m ∈ labels ∧ (∀ k, labels.count k ≤ labels.count m) ∧
      (∀ k, labels.count k = labels.count m → m ≤ k) := by
  obtain ⟨m, hm⟩ := argmaxBincount_eq_some labels hne
  obtain ⟨hmem, hub, hties⟩ := argmaxBincount_spec labels m hm
  refine ⟨m, hm, ?_, ?_, hmem, hub, hties⟩
  · rw [C45_build_tree, C45_go_eq_generic,
      build_tree_generic_leaf_step entropy gain_ratio_score labels.length
        features labels h45, hm]
    rfl
  · rw [CART_build_tree, CART_go_eq_generic,
      build_tree_generic_leaf_step gini_impurity gini_index labels.length
        features labels hcart, hm]
    rfl

theorem build_tree_leaf_majority_witness :
    (([0, 1] : List ℕ) ≠ []) ∧
    (∀ c ∈ candidates [[1], [1]], C45_split_score [[1], [1]] [0, 1] c ≤ 0) ∧
    (∀ c ∈ candidates [[1], [1]], CART_split_score [[1], [1]] [0, 1] c ≤ 0) ∧
    (∃ m, argmaxBincount [0, 1] = some m ∧
      C45_build_tree [[1], [1]] [0, 1] = some (TreeNode.leaf m) ∧
      CART_build_tree [[1], [1]] [0, 1] = some (TreeNode.leaf m) ∧
      m ∈ ([0, 1] : List ℕ) ∧
      (∀ k, ([0, 1] : List ℕ).count k ≤ ([0, 1] : List ℕ).count m) ∧
      (∀ k, ([0, 1] : List ℕ).count k = ([0, 1] : List ℕ).count m → m ≤ k)) := by
  have h45 : ∀ c ∈ candidates [[1], [1]],
      C45_split_score [[1], [1]] [0, 1] c ≤ 0 := by
    intro c hc
    rw [show candidates ([[1], [1]] : List (List ℚ)) = [((0 : ℕ), (1 : ℚ))]
      from by decide] at hc
    have hc' := List.mem_singleton.mp hc
    subst hc'
    have hfl : (split_data [[1], [1]] [0, 1] 0 1).falseLabels = [] := by decide
    exact le_of_eq (information_gain_ratio_empty_branch _ _ _ (Or.inr hfl))
  have hcart : ∀ c ∈ candidates [[1], [1]],
      CART_split_score [[1], [1]] [0, 1] c ≤ 0 := by
    intro c hc
    rw [show candidates ([[1], [1]] : List (List ℚ)) = [((0 : ℕ), (1 : ℚ))]
      from by decide] at hc
    have hc' := List.mem_singleton.mp hc
    subst hc'
    have htl : (split_data [[1], [1]] [0, 1] 0 1).trueLabels = [0, 1] := by decide
    have hfl : (split_data [[1], [1]] [0, 1] 0 1).falseLabels = [] := by decide
    show gini_index (split_data [[1], [1]] [0, 1] 0 1).trueLabels
      (split_data [[1], [1]] [0, 1] 0 1).falseLabels (gini_impurity [0, 1]) ≤ 0
    rw [htl, hfl]
    exact le_of_eq (gini_index_empty_right [0, 1])
  exact ⟨by decide, h45, hcart,
    build_tree_leaf_majority [[1], [1]] [0, 1] (by decide) h45 hcart⟩

/-- C6 counterexample: on a feature matrix with zero samples (and hence an
empty label vector) the candidate loop finds nothing, and the leaf
computation `np.argmax(np.bincount(labels))` raises on the empty vector —
embedded as `none` — so neither builder produces a leaf, contrary to the
claim that the call must produce a leaf and not raise. -/
theorem build_tree_empty_input_raises :
    C45_build_tree ([] : List (List ℚ)) ([] : List ℕ) = none ∧
    CART_build_tree ([] : List (List ℚ)) ([] : List ℕ) = none ∧
    argmaxBincount ([] : List ℕ) = none :=
  ⟨empty_input_none_C45, empty_input_none_CART, rfl⟩

/-- C6 amended: for a node whose label vector is non-empty with a single
distinct label, the candidate loop finds no improving split (every gain
ratio and every Gini-index score is at most 0) and both builders return a
leaf carrying that label; on a feature matrix with zero samples, however,
the loop still finds no split but the leaf computation raises on the empty
label vector (`np.argmax` of the empty bincount, embedded as `none`)
instead of producing a leaf. -/
theorem build_tree_single_label_leaf (features : List (List ℚ))
    (labels : List ℕ) (c : ℕ) (hall : ∀ x ∈ labels, x = c)
    (hne : labels ≠ []) :
    (∀ cand ∈ candidates features,
      C45_split_score features labels cand ≤ 0 ∧
      CART_split_score features labels cand ≤ 0) ∧
    C45_build_tree features labels = some (TreeNode.leaf c) ∧
    CART_build_tree features labels = some (TreeNode.leaf c) ∧
    C45_build_tree ([] : List (List ℚ)) ([] : List ℕ) = none ∧
    CART_build_tree ([] : List (List ℚ)) ([] : List ℕ) = none := by
  obtain ⟨hs, h1, h2⟩ := build_tree_single_label_aux features labels c hall hne
  exact ⟨hs, h1, h2, empty_input_none_C45, empty_input_none_CART⟩

theorem build_tree_single_label_leaf_witness :
    (∀ x ∈ ([1, 1] : List ℕ), x = 1) ∧ (([1, 1] : List ℕ) ≠ []) ∧
    ((∀ cand ∈ candidates [[0], [2]],
      C45_split_score [[0], [2]] [1, 1] cand ≤ 0 ∧
      CART_split_score [[0], [2]] [1, 1] cand ≤ 0) ∧
     C45_build_tree [[0], [2]] [1, 1] = some (TreeNode.leaf 1) ∧
     CART_build_tree [[0], [2]] [1, 1] = some (TreeNode.leaf 1) ∧
     C45_build_tree ([] : List (List ℚ)) ([] : List ℕ) = none ∧
     CART_build_tree ([] : List (List ℚ)) ([] : List ℕ) = none) :=
  ⟨by decide, by decide,
   build_tree_single_label_leaf [[0], [2]] [1, 1] 1 (by decide) (by decide)⟩

/-- C1: on a rectangular feature matrix with matching label vector, the
C4.5 builder's scan covers every feature index and every distinct value
observed for that feature — the tracked best gain ratio bounds the score
of every such candidate — and when the best gain ratio is strictly greater
than 0, the kept `(feature, value)` pair is the first candidate in
iteration order attaining the best (every strictly earlier candidate
scores strictly less, so ties keep the first-encountered pair), and
`build_tree` returns an internal node carrying that pair whose
`true_branch` and `false_branch` are the recursively built trees of the
two partitions of the best split. -/
theorem C45_build_tree_best_split (features : List (List ℚ)) (labels : List ℕ)
    (_hrect : ∀ row ∈ features, row.length = numFeatures features)
    (hm : features.length = labels.length) :
    (∀ j, j < numFeatures features → ∀ v ∈ distinctVals (column features j),
      C45_split_score features labels (j, v) ≤ (C45_scan features labels).1) ∧
    (0 < (C45_scan features labels).1 →
      ∃ pre c post, candidates features = pre ++ c :: post ∧
        (C45_scan features labels).2 = some c ∧
        (C45_scan features labels).1 = C45_split_score features labels c ∧
        (∀ c' ∈ pre,
          C45_split_score features labels c' < (C45_scan features labels).1) ∧
        ∃ tb fb,
          C45_build_tree (split_data features labels c.1 c.2).trueFeatures
            (split_data features labels c.1 c.2).trueLabels = some tb ∧
          C45_build_tree (split_data features labels c.1 c.2).falseFeatures
            (split_data features labels c.1 c.2).falseLabels = some fb ∧
          C45_build_tree features labels = some (TreeNode.node c.1 c.2 tb fb)) := by
  constructor
  · intro j hj v hv
    exact genericScan_le entropy gain_ratio_score features labels (j, v)
      ((mem_candidates features j v).mpr ⟨hj, hv⟩)
  · intro hpos
    have hpos' : 0 < (genericScan entropy gain_ratio_score features labels).1 := hpos
    obtain ⟨pre, c, post, hcands, hsc, hsnd, hpre⟩ :=
      genericScan_pos entropy gain_ratio_score features labels hpos'
    obtain ⟨tb, fb, htb, hfb, htop⟩ := build_tree_generic_pos_step entropy
      gain_ratio_score C45_degenerate_nonpos features labels c hm hpos' hsnd
    refine ⟨pre, c, post, hcands, hsnd, hsc, hpre, tb, fb, ?_, ?_, ?_⟩
    · rw [C45_build_tree, C45_go_eq_generic]
      exact htb
    · rw [C45_build_tree, C45_go_eq_generic]
      exact hfb
    · rw [C45_build_tree, C45_go_eq_generic]
      exact htop

theorem C45_build_tree_best_split_witness :
    (∀ row ∈ ([[0], [1]] : List (List ℚ)), row.length = numFeatures [[0], [1]]) ∧
    ([[0], [1]] : List (List ℚ)).length = ([0, 1] : List ℕ).length ∧
    ((∀ j, j < numFeatures [[0], [1]] →
        ∀ v ∈ distinctVals (column [[0], [1]] j),
      C45_split_score [[0], [1]] [0, 1] (j, v) ≤ (C45_scan [[0], [1]] [0, 1]).1) ∧
    (0 < (C45_scan [[0], [1]] [0, 1]).1 →
      ∃ pre c post, candidates [[0], [1]] = pre ++ c :: post ∧
        (C45_scan [[0], [1]] [0, 1]).2 = some c ∧
        (C45_scan [[0], [1]] [0, 1]).1 = C45_split_score [[0], [1]] [0, 1] c ∧
        (∀ c' ∈ pre, C45_split_score [[0], [1]] [0, 1] c' <
          (C45_scan [[0], [1]] [0, 1]).1) ∧
        ∃ tb fb,
          C45_build_tree (split_data [[0], [1]] [0, 1] c.1 c.2).trueFeatures
            (split_data [[0], [1]] [0, 1] c.1 c.2).trueLabels = some tb ∧
          C45_build_tree (split_data [[0], [1]] [0, 1] c.1 c.2).falseFeatures
            (split_data [[0], [1]] [0, 1] c.1 c.2).falseLabels = some fb ∧
          C45_build_tree [[0], [1]] [0, 1] =
            some (TreeNode.node c.1 c.2 tb fb))) :=
  ⟨by decide, rfl, C45_build_tree_best_split [[0], [1]] [0, 1] (by decide) rfl⟩

/-- C10: every label returned by `predict_node` is the `results` value of
some leaf of the traversed tree; every leaf of a tree built by either
builder carries a label occurring in the label vector of that build (the
leaf rule picks an occurring label of its non-empty subset, and partition
labels are drawn from the node's labels); hence every prediction on a
built tree is a class label that appeared in the training labels. -/
theorem predictions_are_training_labels :
    (∀ (t : TreeNode) (sample : List ℚ),
      predict_node t sample ∈ leafResults t) ∧
    (∀ (features : List (List ℚ)) (labels : List ℕ) (t : TreeNode),
      C45_build_tree features labels = some t →
      ∀ r ∈ leafResults t, r ∈ labels) ∧
    (∀ (features : List (List ℚ)) (labels : List ℕ) (t : TreeNode),
      CART_build_tree features labels = some t →
      ∀ r ∈ leafResults t, r ∈ labels) ∧
    (∀ (features : List (List ℚ)) (labels : List ℕ) (t : TreeNode)
        (sample : List ℚ),
      C45_build_tree features labels = some t →
      predict_node t sample ∈ labels) ∧
    (∀ (features : List (List ℚ)) (labels : List ℕ) (t : TreeNode)
        (sample : List ℚ),
      CART_build_tree features labels = some t →
      predict_node t sample ∈ labels) := by
  have h45 : ∀ (features : List (List ℚ)) (labels : List ℕ) (t : TreeNode),
      C45_build_tree features labels = some t →
      ∀ r ∈ leafResults t, r ∈ labels := by
    intro features labels t ht
    rw [C45_build_tree, C45_go_eq_generic] at ht
    exact build_tree_generic_leaves_mem entropy gain_ratio_score _
      features labels t ht
  have hcart : ∀ (features : List (List ℚ)) (labels : List ℕ) (t : TreeNode),
      CART_build_tree features labels = some t →
      ∀ r ∈ leafResults t, r ∈ labels := by
    intro features labels t ht
    rw [CART_build_tree, CART_go_eq_generic] at ht
    exact build_tree_generic_leaves_mem gini_impurity gini_index _
      features labels t ht
  exact ⟨predict_node_mem_leafResults, h45, hcart,
    fun features labels t sample ht =>
      h45 features labels t ht _ (predict_node_mem_leafResults t sample),
    fun features labels t sample ht =>
      hcart features labels t ht _ (predict_node_mem_leafResults t sample)⟩

theorem predictions_are_training_labels_witness :
    CART_build_tree [[0]] [7] = some (TreeNode.leaf 7) ∧
    predict_node (TreeNode.leaf 7) [0] ∈ ([7] : List ℕ) := by
  have hb : CART_build_tree [[0]] [7] = some (TreeNode.leaf 7) :=
    (build_tree_single_label_aux [[0]] [7] 7 (by decide) (by decide)).2.2
  exact ⟨hb, predictions_are_training_labels.2.2.2.2 [[0]] [7]
    (TreeNode.leaf 7) [0] hb⟩

/-- `sigmoid_function` of `logistic_regression_numpy.py`:
`1 / (1 + np.exp(-x))`. -/
noncomputable def sigmoid_function (x : ℝ) : ℝ := 1 / (1 + Real.exp (-x))

/-- The per-sample inner product `sum_j features[i, j] * weight[j]` computed
by the loops of `cost_function` and `gradient_descent`, and rowwise by
`np.dot(test_features, self.weight)` in `predict`. -/
def dot_product (x w : List ℝ) : ℝ := (List.zipWith (fun a b => a * b) x w).sum

/-- The per-sample probability of the model being fitted:
`sigmoid_function(predict + bias)` as computed in `cost_function` and
`gradient_descent` (the bias inside the sigmoid). -/
noncomputable def model_prob (weight : List ℝ) (bias : ℝ) (x : List ℝ) : ℝ :=
  sigmoid_function (dot_product x weight + bias)

/-- `log_loss` of `logistic_regression_numpy.py`. -/
noncomputable def log_loss (x y : ℝ) : ℝ :=
  -(x * Real.log y) - (1 - x) * Real.log (1 - y)

/-- `cost_function` of `logistic_regression_numpy.py`: mean binary
cross-entropy of the per-sample probabilities `model_prob`. -/
noncomputable def cost_function (features : List (List ℝ)) (labels : List ℝ)
    (weight : List ℝ) (bias : ℝ) : ℝ :=
  (((features.zip labels).map
      (fun p => log_loss p.2 (model_prob weight bias p.1))).sum) /
    (features.length : ℝ)

/-- `gradient_descent` of `logistic_regression_numpy.py`: one step of
gradient descent on the model `model_prob` (probabilities computed with the
bias inside the sigmoid). -/
noncomputable def gradient_descent (features : List (List ℝ)) (labels : List ℝ)
    (weight : List ℝ) (bias learn_rate : ℝ) : List ℝ × ℝ :=
  let m : ℝ := features.length
  let residuals := (features.zip labels).map
    (fun p => model_prob weight bias p.1 - p.2)
  let weight_gradient := (List.range weight.length).map
    (fun j => ((features.zip residuals).map (fun p => p.2 * p.1.getD j 0)).sum / m)
  let bias_gradient := residuals.sum / m
  (List.zipWith (fun wj gj => wj - learn_rate * gj) weight weight_gradient,
   bias - learn_rate * bias_gradient)

/-- The probability computed by `LogisticRegressionNumpy.predict`:
`sigmoid_function(np.dot(test_features, self.weight)) + self.bias` — the
bias is added outside the sigmoid. -/
noncomputable def predict_probability (weight : List ℝ) (bias : ℝ)
    (x : List ℝ) : ℝ :=
  sigmoid_function (dot_product x weight) + bias

/-- `predict` classifies a row as 1 iff its probability is at least 0.5:
`predictions = (prob >= 0.5).astype(int)`. -/
def predict_classifies_one (weight : List ℝ) (bias : ℝ) (x : List ℝ) : Prop :=
  0.5 ≤ predict_probability weight bias x

/-- The decision of the model that `fit` actually trains: probability
`model_prob` (bias inside the sigmoid) at least 0.5. -/
def model_classifies_one (weight : List ℝ) (bias : ℝ) (x : List ℝ) : Prop :=
  0.5 ≤ model_prob weight bias x

theorem sigmoid_pos (x : ℝ) : 0 < sigmoid_function x := by
  rw [sigmoid_function]
  positivity

theorem sigmoid_ge_half_iff (x : ℝ) : (0.5 ≤ sigmoid_function x) ↔ 0 ≤ x := by
  rw [sigmoid_function]
  have hden : 0 < 1 + Real.exp (-x) := by positivity
  rw [le_div_iff₀ hden]
  constructor
  · intro h
    have hexp : Real.exp (-x) ≤ 1 := by nlinarith
    rw [show (1 : ℝ) = Real.exp 0 from (Real.exp_zero).symm] at hexp
    have hle := Real.exp_le_exp.mp hexp
    linarith
  · intro h
    have hexp : Real.exp (-x) ≤ 1 := by
      rw [show (1 : ℝ) = Real.exp 0 from (Real.exp_zero).symm]
      exact Real.exp_le_exp.mpr (by linarith)
    nlinarith

theorem sigmoid_decision_mismatch (b : ℝ) (hb : b ≠ 0) :
    ∃ x : ℝ, ¬((0.5 ≤ sigmoid_function x + b) ↔ (0.5 ≤ sigmoid_function (x + b))) := by
  rcases lt_or_gt_of_ne hb with hneg | hpos
  · refine ⟨-b, ?_⟩
    intro hiff
    have hrhs : 0.5 ≤ sigmoid_function (-b + b) := by
      rw [show (-b + b) = 0 from by ring, sigmoid_ge_half_iff]
    have hlhs : sigmoid_function (-b) + b < 0.5 := by
      rw [sigmoid_function, neg_neg]
      have hden : 0 < 1 + Real.exp b := by positivity
      have hE1 : b + 1 < Real.exp b := Real.add_one_lt_exp hb
      have hE2 : 0 < Real.exp b := Real.exp_pos b
      have h1 : 1 / (1 + Real.exp b) < 0.5 - b := by
        rw [div_lt_iff₀ hden]
        nlinarith [mul_pos (neg_pos.mpr hneg) hE2]
      linarith
    exact absurd (hiff.mpr hrhs) (not_le.mpr hlhs)
  · rcases lt_or_le b 0.5 with hlt | hge
    · have hnum : (0 : ℝ) < 1 / 2 - b := by
        rw [lt_sub_iff_add_lt, zero_add]
        calc b < 0.5 := hlt
          _ = 1 / 2 := by norm_num
      have hden2 : (0 : ℝ) < 1 / 2 + b := by linarith
      have ha_pos : (0 : ℝ) < (1 / 2 - b) / (1 / 2 + b) := div_pos hnum hden2
      refine ⟨Real.log ((1 / 2 - b) / (1 / 2 + b)), ?_⟩
      intro hiff
      have hsig : sigmoid_function (Real.log ((1 / 2 - b) / (1 / 2 + b))) =
          1 / 2 - b := by
        rw [sigmoid_function, Real.exp_neg, Real.exp_log ha_pos]
        have h1 : (1 / 2 - b) ≠ 0 := ne_of_gt hnum
        have h2 : (1 / 2 + b) ≠ 0 := ne_of_gt hden2
        rw [inv_div]
        have h3 : 1 + (1 / 2 + b) / (1 / 2 - b) = 1 / (1 / 2 - b) := by
          have h4 : (1 : ℝ) - 2 * b ≠ 0 := fun hc => h1 (by linarith)
          field_simp
          ring
        rw [h3, one_div_one_div]
      have hlhs : 0.5 ≤ sigmoid_function (Real.log ((1 / 2 - b) / (1 / 2 + b))) + b := by
        rw [hsig]
        norm_num
      have hlog_lt : Real.log ((1 / 2 - b) / (1 / 2 + b)) < -b := by
        rw [Real.log_lt_iff_lt_exp ha_pos]
        have hE : -b + 1 < Real.exp (-b) :=
          Real.add_one_lt_exp (neg_ne_zero.mpr hb)
        have ha_lt : (1 / 2 - b) / (1 / 2 + b) < 1 - b := by
          rw [div_lt_iff₀ hden2]
          nlinarith
        linarith
      have hrhs : ¬(0.5 ≤ sigmoid_function
          (Real.log ((1 / 2 - b) / (1 / 2 + b)) + b)) := by
        rw [sigmoid_ge_half_iff]
        intro hcon
        linarith
      exact hrhs (hiff.mp hlhs)
    · refine ⟨-b - 1, ?_⟩
      intro hiff
      have hlhs : 0.5 ≤ sigmoid_function (-b - 1) + b := by
        have hs := sigmoid_pos (-b - 1)
        linarith
      have hrhs : ¬(0.5 ≤ sigmoid_function (-b - 1 + b)) := by
        rw [sigmoid_ge_half_iff]
        intro hcon
        linarith
      exact hrhs (hiff.mp hlhs)

/-- A test row whose entries are all 0 except entry `i`, used to realize an
arbitrary score `dot_product x weight` when `weight[i] ≠ 0`. -/
def unitRow : ℕ → ℕ → ℝ → List ℝ
  | 0, _, _ => []
  | n + 1, 0, c => c :: List.replicate n 0
  | n + 1, i + 1, c => 0 :: unitRow n i c

theorem dot_product_replicate_zero (n : ℕ) :
    ∀ w : List ℝ, dot_product (List.replicate n 0) w = 0 := by
  induction n with
  | zero => intro w; rfl
  | succ n ih =>
    intro w
    cases w with
    | nil => rfl
    | cons a w' =>
      show (List.zipWith (fun a b => a * b)
        (0 :: List.replicate n 0) (a :: w')).sum = 0
      rw [List.zipWith_cons_cons, List.sum_cons, zero_mul, zero_add]
      exact ih w'

theorem dot_product_unitRow (w : List ℝ) : ∀ (i : ℕ) (c : ℝ), i < w.length →
    dot_product (unitRow w.length i c) w = c * w.getD i 0 := by
  induction w with
  | nil =>
    intro i c hi
    exact absurd hi (Nat.not_lt_zero i)
  | cons a w ih =>
    intro i c hi
    cases i with
    | zero =>
      show dot_product (c :: List.replicate w.length 0) (a :: w) = c * a
      show (List.zipWith (fun a b => a * b)
        (c :: List.replicate w.length 0) (a :: w)).sum = c * a
      rw [List.zipWith_cons_cons, List.sum_cons]
      rw [show (List.zipWith (fun a b => a * b) (List.replicate w.length 0) w).sum =
        dot_product (List.replicate w.length 0) w from rfl]
      rw [dot_product_replicate_zero]
      ring
    | succ i =>
      show dot_product (0 :: unitRow w.length i c) (a :: w) = c * (a :: w).getD (i + 1) 0
      rw [List.getD_cons_succ]
      show (List.zipWith (fun a b => a * b) (0 :: unitRow w.length i c) (a :: w)).sum =
        c * w.getD i 0
      rw [List.zipWith_cons_cons, List.sum_cons, zero_mul, zero_add]
      exact ih i c (Nat.lt_of_succ_lt_succ hi)

theorem dot_product_surjective (weight : List ℝ) (i : ℕ) (hi : i < weight.length)
    (hwi : weight.getD i 0 ≠ 0) (t : ℝ) :
    ∃ x : List ℝ, dot_product x weight = t := by
  refine ⟨unitRow weight.length i (t / weight.getD i 0), ?_⟩
  rw [dot_product_unitRow weight i (t / weight.getD i 0) hi]
  exact div_mul_cancel₀ t hwi

theorem dot_product_zero_weight (x : List ℝ) : dot_product x [0] = 0 := by
  cases x with
  | nil => rfl
  | cons a l =>
    show (List.zipWith (fun a b => a * b) (a :: l) ([0] : List ℝ)).sum = 0
    rw [List.zipWith_cons_cons]
    simp

/-- C9 counterexample: with the trained weight vector `[0]` and bias `1`,
`predict`'s decision function and the trained model's decision function
coincide on every test row (both always classify 1) although the bias is
not 0 — so, as universally stated over every trained weight vector, the
claim that they coincide only when the bias is 0 is false. -/
theorem predict_bias_coincides_zero_weight :
    (∀ x : List ℝ, predict_classifies_one [0] 1 x ↔ model_classifies_one [0] 1 x) ∧
    (1 : ℝ) ≠ 0 := by
  constructor
  · intro x
    rw [predict_classifies_one, model_classifies_one, predict_probability,
      model_prob, dot_product_zero_weight]
    constructor
    · intro _
      rw [zero_add, sigmoid_ge_half_iff]
      norm_num
    · intro _
      have hs := sigmoid_pos 0
      linarith
  · norm_num

/-- C9 amended: `predict` applies the bias outside the sigmoid — a test row
`x` is classified 1 iff `sigmoid(dot(x, w)) + b ≥ 0.5` — whereas
`cost_function` and `gradient_descent` fit the model
`sigmoid(dot(x, w) + b)`; provided the trained weight vector has a nonzero
component, `predict`'s decision function coincides with the trained model's
on all inputs iff `b = 0` (for the zero weight vector both decision
functions are constant and coincide for every `b`). -/
theorem logistic_predict_bias_mismatch (weight : List ℝ) (bias : ℝ)
    (hw : ∃ i, i < weight.length ∧ weight.getD i 0 ≠ 0) :
    (∀ x : List ℝ, predict_classifies_one weight bias x ↔
      model_classifies_one weight bias x) ↔ bias = 0 := by
  constructor
  · intro hcoin
    by_contra hb
    obtain ⟨x0, hx0⟩ := sigmoid_decision_mismatch bias hb
    obtain ⟨i, hi, hwi⟩ := hw
    obtain ⟨row, hrow⟩ := dot_product_surjective weight i hi hwi x0
    apply hx0
    have hc := hcoin row
    rw [predict_classifies_one, model_classifies_one, predict_probability,
      model_prob, hrow] at hc
    exact hc
  · rintro rfl
    intro x
    rw [predict_classifies_one, model_classifies_one, predict_probability,
      model_prob, add_zero, add_zero]

theorem logistic_predict_bias_mismatch_witness :
    (∃ i, i < ([1] : List ℝ).length ∧ ([1] : List ℝ).getD i 0 ≠ 0) ∧
    ((∀ x : List ℝ, predict_classifies_one [1] 0 x ↔
      model_classifies_one [1] 0 x) ↔ (0 : ℝ) = 0) :=
  ⟨⟨0, by norm_num, by simp⟩,
   logistic_predict_bias_mismatch [1] 0 ⟨0, by norm_num, by simp⟩⟩

/-- The spec's end-to-end scenario 1 for the CART builder, exercising the
accepted-split branch: two samples perfectly separable on feature 0 produce
an internal root splitting on `feature 0 <= 0` with leaves 0 and 1, and
`predict_node` recovers each training label. -/
theorem gini_impurity_two_classes : gini_impurity [0, 1] = 1 / 2 := by
  rw [gini_impurity, if_neg (by simp)]
  have htf : ([0, 1] : List ℕ).toFinset = {0, 1} := by decide
  rw [htf, Finset.sum_insert (by decide), Finset.sum_singleton]
  have hc0 : ([0, 1] : List ℕ).count 0 = 1 := by decide
  have hc1 : ([0, 1] : List ℕ).count 1 = 1 := by decide
  rw [hc0, hc1]
  norm_num

theorem CART_scenario_separable :
    CART_build_tree [[0], [1]] [0, 1] =
      some (TreeNode.node 0 0 (TreeNode.leaf 0) (TreeNode.leaf 1)) ∧
    predict_node (TreeNode.node 0 0 (TreeNode.leaf 0) (TreeNode.leaf 1)) [0] = 0 ∧
    predict_node (TreeNode.node 0 0 (TreeNode.leaf 0) (TreeNode.leaf 1)) [1] = 1 := by
  have hscore00 : CART_split_score [[0], [1]] [0, 1] ((0 : ℕ), (0 : ℚ)) = 1 / 2 := by
    show gini_index (split_data [[0], [1]] [0, 1] 0 0).trueLabels
      (split_data [[0], [1]] [0, 1] 0 0).falseLabels (gini_impurity [0, 1]) = 1 / 2
    rw [show (split_data [[0], [1]] [0, 1] 0 0).trueLabels = [0] from by decide,
      show (split_data [[0], [1]] [0, 1] 0 0).falseLabels = [1] from by decide,
      gini_impurity_two_classes, gini_index,
      gini_impurity_const [0] 0 (by decide) (by decide),
      gini_impurity_const [1] 1 (by decide) (by decide)]
    norm_num
  have hscore01 : CART_split_score [[0], [1]] [0, 1] ((0 : ℕ), (1 : ℚ)) = 0 := by
    show gini_index (split_data [[0], [1]] [0, 1] 0 1).trueLabels
      (split_data [[0], [1]] [0, 1] 0 1).falseLabels (gini_impurity [0, 1]) = 0
    rw [show (split_data [[0], [1]] [0, 1] 0 1).trueLabels = [0, 1] from by decide,
      show (split_data [[0], [1]] [0, 1] 0 1).falseLabels = [] from by decide]
    exact gini_index_empty_right [0, 1]
  have hcands : candidates [[0], [1]] = [((0 : ℕ), (0 : ℚ)), ((0 : ℕ), (1 : ℚ))] := by
    decide
  have hpos : 0 < (CART_scan [[0], [1]] [0, 1]).1 := by
    have hle : CART_split_score [[0], [1]] [0, 1] ((0 : ℕ), (0 : ℚ)) ≤
        (CART_scan [[0], [1]] [0, 1]).1 :=
      scanBest_le _ _ _ (by rw [hcands]; exact List.mem_cons_self _ _)
    rw [hscore00] at hle
    linarith
  obtain ⟨pre, c, post, hdec, hsc, hsnd, hpre⟩ :=
    genericScan_pos gini_impurity gini_index [[0], [1]] [0, 1] hpos
  have hcmem : c ∈ candidates [[0], [1]] := by
    rw [hdec]
    exact List.mem_append_right _ (List.mem_cons_self _ _)
  rw [hcands] at hcmem
  have hc : c = ((0 : ℕ), (0 : ℚ)) := by
    rcases List.mem_cons.mp hcmem with h | h
    · exact h
    · exfalso
      have hc1 := List.mem_singleton.mp h
      rw [hc1] at hsc
      have hs01' : siteScore gini_impurity gini_index [[0], [1]] [0, 1]
          ((0 : ℕ), (1 : ℚ)) = 0 := hscore01
      rw [hs01'] at hsc
      have hpos' : 0 < (genericScan gini_impurity gini_index [[0], [1]] [0, 1]).1 :=
        hpos
      rw [hsc] at hpos'
      exact absurd hpos' (lt_irrefl 0)
  subst hc
  obtain ⟨tb, fb, htb, hfb, htop⟩ := build_tree_generic_pos_step gini_impurity
    gini_index CART_degenerate_nonpos [[0], [1]] [0, 1] ((0 : ℕ), (0 : ℚ))
    rfl hpos hsnd
  have haux_t := (build_tree_single_label_aux [[0]] [0] 0 (by decide) (by decide)).2.2
  have haux_f := (build_tree_single_label_aux [[1]] [1] 1 (by decide) (by decide)).2.2
  rw [CART_build_tree, CART_go_eq_generic] at haux_t haux_f
  rw [show (split_data [[0], [1]] [0, 1] (0 : ℕ) (0 : ℚ)).trueFeatures = [[0]] from by decide,
    show (split_data [[0], [1]] [0, 1] (0 : ℕ) (0 : ℚ)).trueLabels = [0] from by decide] at htb
  rw [show (split_data [[0], [1]] [0, 1] (0 : ℕ) (0 : ℚ)).falseFeatures = [[1]] from by decide,
    show (split_data [[0], [1]] [0, 1] (0 : ℕ) (0 : ℚ)).falseLabels = [1] from by decide] at hfb
  have htb' : tb = TreeNode.leaf 0 := by
    rw [haux_t] at htb
    exact (Option.some.inj htb).symm
  have hfb' : fb = TreeNode.leaf 1 := by
    rw [haux_f] at hfb
    exact (Option.some.inj hfb).symm
  subst htb'
  subst hfb'
  refine ⟨?_, by decide, by decide⟩
  rw [CART_build_tree, CART_go_eq_generic]
  exact htop
